import Mathlib

/-!
Verification of the `edlreader` CMX3600 EDL reader (`main.py`) against its
specification.

Strings are modelled as `List Char` (`Str`).  Python text lines are the
elements of a `List Str`; the raw-file boundary (`_read`, `write`) is modelled
at the level of newline-stripped lines, with blank lines represented by `[]`.

The timecode library `tclib3` is imported by `main.py` from the repository's
`libs` package, whose source is not part of `src/`; it is modelled from the
spec's Timecode Service contract (section 6) at integer frame rates
(non-drop-frame arithmetic; the drop-frame flag selects the frame separator of
`frames_to_tc` exactly as the contract states).

Python exceptions are modelled by `Except Err` / `Option Err` results.
In-place mutation that an exception can leave behind (the transform loops of
`offset_forward` / `offset_backward` and `Metadata.set`) is modelled by
returning the partially updated state together with the error, so that
"mutated before the error" is expressible.
-/

set_option maxHeartbeats 1000000

abbrev Str := List Char

/-- Character list of a string literal (notation helper for concrete inputs). -/
def chars (s : String) : Str := s.data

instance {ε α : Type} [DecidableEq ε] [DecidableEq α] : DecidableEq (Except ε α) := fun a b =>
  match a, b with
  | .ok x, .ok y =>
    if h : x = y then .isTrue (by rw [h]) else .isFalse (by intro hc; cases hc; exact h rfl)
  | .error e, .error f =>
    if h : e = f then .isTrue (by rw [h]) else .isFalse (by intro hc; cases hc; exact h rfl)
  | .ok _, .error _ => .isFalse (by intro hc; cases hc)
  | .error _, .ok _ => .isFalse (by intro hc; cases hc)

/-- Error kinds surfaced by the code, named as in the spec's taxonomy (section 7).
`malformedEvent` / `malformedMarker` model the `TypeError` raised by
constructing `EDLEvent` / `EDLMarker` with the wrong number of fields,
`frameRateUnset` the `AttributeError` raised by the `fps` property,
`keyError` the `KeyError` of the `colors` dictionary lookup and
`valueError` the `ValueError` of `int()`. -/
inductive Err
  | malformedEvent
  | malformedMarker
  | invalidTimecode
  | frameRateUnset
  | keyError
  | valueError
deriving DecidableEq

/-! ## String primitives (Python `str` operations used by the code) -/

/-- Python `s.split(sep)` for a one-character separator class: returns the
(possibly empty) parts between separator characters; always non-empty. -/
def splitBy (p : Char → Bool) : List Char → List (List Char)
  | [] => [[]]
  | c :: cs =>
    if p c then [] :: splitBy p cs
    else
      match splitBy p cs with
      | [] => [[c]]
      | w :: ws => (c :: w) :: ws

/-- Python `line.split(" ")` followed by discarding empty sections, as in
`[section for section in split_line if section]`. -/
def tokens (l : Str) : List Str := (splitBy (· == ' ') l).filter (fun t => !t.isEmpty)

/-- Python `s.strip()`: remove leading and trailing whitespace. -/
def pyStrip (s : Str) : Str :=
  ((s.dropWhile Char.isWhitespace).reverse.dropWhile Char.isWhitespace).reverse

/-- Python `"\n".join(lines)`. -/
def joinNL : List Str → Str
  | [] => []
  | [l] => l
  | l :: ls => l ++ '\n' :: joinNL ls

/-- Python `line[0].isdigit()` for the non-empty lines produced by `_read`
(on `[]` the model returns `false`; the Python code never evaluates it there). -/
def digitLed : Str → Bool
  | [] => false
  | c :: _ => c.isDigit

def digitChar : Nat → Char
  | 0 => '0' | 1 => '1' | 2 => '2' | 3 => '3' | 4 => '4'
  | 5 => '5' | 6 => '6' | 7 => '7' | 8 => '8' | 9 => '9'
  | _ => '*'

def natToCharsAux : Nat → Nat → Str
  | 0, _ => []
  | fuel + 1, n =>
    if n < 10 then [digitChar n]
    else natToCharsAux fuel (n / 10) ++ [digitChar (n % 10)]

/-- Decimal rendering of a natural number. -/
def natToChars (n : Nat) : Str := natToCharsAux (n + 1) n

/-- Decimal value of a digit string (used to model Python `int()`). -/
def digitsVal (s : Str) : Nat := s.foldl (fun a c => a * 10 + (c.toNat - 48)) 0

/-- Python `int(s)` restricted to the non-negative decimal numerals the code
feeds it (frame counts and marker durations). -/
def parseNat (s : Str) : Option Nat :=
  if s ≠ [] ∧ s.all Char.isDigit then some (digitsVal s) else none

/-! ## tclib3 (Timecode Service) -/

namespace tclib3

/-- A SMPTE field separator: `:`, or `;` in drop-frame position. -/
def isTCSep (c : Char) : Bool := c == ':' || c == ';'

/-- Modelled from the spec: `tclib3.tc_to_frames` of the Timecode Service
contract (section 6) — converts an `HH:MM:SS:FF` (or `HH:MM:SS;FF`) timecode
string to an absolute frame count at the given rate, failing with
`InvalidTimecode` on malformed input.  Modelled at integer frame rates. -/
def tc_to_frames (tc : Str) (fps : Nat) : Except Err Nat :=
  match (splitBy isTCSep tc).map parseNat with
  | [some h, some m, some s, some f] => .ok (((h * 60 + m) * 60 + s) * fps + f)
  | _ => .error .invalidTimecode

def pad2 (n : Nat) : Str :=
  if (natToChars n).length < 2 then '0' :: natToChars n else natToChars n

/-- Modelled from the spec: `tclib3.frames_to_tc` of the Timecode Service
contract (section 6) — converts an absolute frame count back to a timecode
string, using `;` as the frame separator when `drop_frame` is true and `:`
otherwise.  Modelled at integer frame rates; a negative count (which the
reader's code never produces) is clamped to zero. -/
def frames_to_tc (frames : Int) (fps : Nat) (df : Bool) : Str :=
  let n := frames.toNat
  let ff := n % fps
  let secs := n / fps
  let ss := secs % 60
  let mins := secs / 60
  let mm := mins % 60
  let hh := mins / 60
  pad2 hh ++ ':' :: pad2 mm ++ ':' :: pad2 ss ++ (if df then ';' else ':') :: pad2 ff

end tclib3

/-! ## Record model -/

/-- `EDLMarker` dataclass.  `mk'` applies `__post_init__`, which drops the
two-character field tag and strips surrounding whitespace from each field. -/
structure EDLMarker where
  color : Str
  name : Str
  duration : Str
deriving DecidableEq

/-- `EDLMarker(color, name, duration)` including `__post_init__`. -/
def EDLMarker.mk' (color name duration : Str) : EDLMarker :=
  ⟨pyStrip (color.drop 2), pyStrip (name.drop 2), pyStrip (duration.drop 2)⟩

/-- `EDLEvent` dataclass.  The `event_number` field is annotated `int` in the
source but is only ever assigned the raw token string; it is a `Str` here. -/
structure EDLEvent where
  event_number : Str
  reel_name : Str
  channel : Str
  transition : Str
  source_in : Str
  source_out : Str
  record_in : Str
  record_out : Str
  marker : EDLMarker
  notes : List Str
deriving DecidableEq

def sp (k : Nat) : Str := List.replicate k ' '

/-- `EDLEvent.__str__`: the canonical single-line rendering
`partone + parttwo + partthree` with its fixed literal spacing. -/
def EDLEvent.render (e : EDLEvent) : Str :=
  e.event_number ++ sp 2 ++ e.reel_name ++ sp 5 ++ e.channel ++ sp 5 ++
    e.transition ++ sp 8 ++ e.source_in ++ sp 1 ++ e.source_out ++ sp 1 ++
    e.record_in ++ sp 1 ++ e.record_out

/-- The nine positional constructor tokens of an event in order (the shape of
`event[0]` that `EDLEvent(*event[0], ...)` requires). -/
def fieldsOf (e : EDLEvent) : List Str :=
  [e.event_number, e.reel_name, e.channel, e.transition,
   e.source_in, e.source_out, e.record_in, e.record_out]

/-! ## Parser (`EDLReader._parse_header_and_events` and helpers) -/

/-- A raw event before construction: index 0 is event info, index 1 is comment
lines (the tuples accumulated in `events`). -/
abbrev Raw := List Str × List Str

/-- The loop state of `_parse_header_and_events`. -/
structure PSt where
  header : List Str
  events : List Raw
  event_info : List Str
  comment_lines : List Str
  is_event : Bool
  is_header : Bool
deriving DecidableEq

def initSt : PSt := ⟨[], [], [], [], false, true⟩

/-- The `if is_event and line[0].isdigit():` block that closes out an
in-progress event. -/
def flushIf (st : PSt) (line : Str) : PSt :=
  if st.is_event && digitLed line then
    { st with events := st.events ++ [(st.event_info, st.comment_lines)],
              event_info := [], comment_lines := [], is_event := false }
  else st

/-- One iteration of the parser's line loop. -/
def stepLine (st : PSt) (line : Str) : PSt :=
  let st1 := flushIf st line
  if st1.is_event then { st1 with comment_lines := st1.comment_lines ++ [line] }
  else if digitLed line then
    { st1 with event_info := tokens line, is_event := true, is_header := false }
  else if st1.is_header then { st1 with header := st1.header ++ [line] }
  else st1

def scan (st : PSt) : List Str → PSt
  | [] => st
  | l :: ls => scan (stepLine st l) ls

/-- The block after the loop: the in-progress event is appended only when both
`event_info` and `comment_lines` are non-empty (Python truthiness of the two
lists guarding `current_event`). -/
def finishRaws (st : PSt) : List Raw :=
  if st.event_info ≠ [] ∧ st.comment_lines ≠ [] then
    st.events ++ [(st.event_info, st.comment_lines)]
  else st.events

/-- `EDLReader._remove_marker_from_comment`. -/
def removeMarker (comment : List Str) : List Str :=
  comment.map (fun line =>
    if line.contains '|' then pyStrip ((splitBy (· == '|') line).headD []) else line)

/-- Construction of one `EDLEvent` from a raw event, as in the second loop of
`_parse_header_and_events`.  With `resolvemarkers` the marker fields are
`"\n".join(comment).split("|")[1:]` and must number exactly three
(`EDLMarker` arity), and the event info tokens must number exactly eight
(`EDLEvent` arity); arity mismatches are the `TypeError`s modelled as
`malformedMarker` / `malformedEvent`. -/
def mkEvent (resolvemarkers : Bool) (raw : Raw) : Except Err EDLEvent :=
  if resolvemarkers then
    match (splitBy (· == '|') (joinNL raw.2)).tail with
    | [c, n, d] =>
      match raw.1 with
      | [en, rl, ch, tr, si, so, ri, ro] =>
        .ok ⟨en, rl, ch, tr, si, so, ri, ro, EDLMarker.mk' c n d, removeMarker raw.2⟩
      | _ => .error .malformedEvent
    | _ => .error .malformedMarker
  else
    match raw.1 with
    | [en, rl, ch, tr, si, so, ri, ro] =>
      .ok ⟨en, rl, ch, tr, si, so, ri, ro, EDLMarker.mk' [] [] [], raw.2⟩
    | _ => .error .malformedEvent

/-- The event-construction loop (stops at the first failing construction, as
the raised `TypeError` aborts `_parse_header_and_events`). -/
def mkEvents (resolvemarkers : Bool) : List Raw → Except Err (List EDLEvent)
  | [] => .ok []
  | r :: rs =>
    match mkEvent resolvemarkers r with
    | .error e => .error e
    | .ok ev =>
      match mkEvents resolvemarkers rs with
      | .error e => .error e
      | .ok evs => .ok (ev :: evs)

/-- `_parse_header_and_events` on the stripped non-empty lines: header plus
constructed events. -/
def parseHeaderAndEvents (resolvemarkers : Bool) (lines : List Str) :
    Except Err (List Str × List EDLEvent) :=
  let st := scan initSt lines
  match mkEvents resolvemarkers (finishRaws st) with
  | .error e => .error e
  | .ok evs => .ok (st.header, evs)

/-- `EDLReader._read` on the file's newline-split lines: lines equal to a bare
newline are discarded and the rest keep their content (the `strip("\n")` is
implicit in the line representation). -/
def readLines (raw_lines : List Str) : List Str := raw_lines.filter (fun l => !l.isEmpty)

/-! ## EDLReader state and methods -/

/-- The `EDLReader` instance state.  `edl_name` stands for `edl_path.name`. -/
structure EDLReader where
  edl_name : Str
  df : Bool
  resolvemarkers : Bool
  edl_lines : List Str
  header : List Str
  original_events : List EDLEvent
  current_events : List EDLEvent
  _fps : Option Nat
  _isoffset : Bool
deriving DecidableEq

/-- `EDLReader.__init__`: read, parse, deep-copy the originals into
`current_events` (value copy in this model).  Takes the raw file lines in
place of the path. -/
def EDLReader.init (edl_name : Str) (raw_lines : List Str) (fps : Option Nat)
    (resolvemarkers : Bool := false) (df : Bool := false) : Except Err EDLReader :=
  let edl_lines := readLines raw_lines
  match parseHeaderAndEvents resolvemarkers edl_lines with
  | .error e => .error e
  | .ok (hd, evs) =>
    .ok { edl_name, df, resolvemarkers, edl_lines, header := hd,
          original_events := evs, current_events := evs,
          _fps := fps, _isoffset := false }

/-- The `fps` property: raises (`FrameRateUnset`) when `_fps` is unset. -/
def EDLReader.fps (r : EDLReader) : Except Err Nat :=
  match r._fps with
  | none => .error .frameRateUnset
  | some f => .ok f

/-- `EDLReader.reset`. -/
def EDLReader.reset (r : EDLReader) : EDLReader :=
  { r with current_events := r.original_events, _isoffset := false }

/-- `EDLReader.set_fps` (assign then implicit reset). -/
def EDLReader.set_fps (r : EDLReader) (fps : Nat) : EDLReader :=
  EDLReader.reset { r with _fps := some fps }

/-- `EDLReader.timecodes`. -/
def EDLReader.timecodes (r : EDLReader) (src_tc : Bool := false) : List (Str × Str) :=
  r.current_events.map (fun e =>
    if src_tc then (e.source_in, e.source_out) else (e.record_in, e.record_out))

/-- `EDLReader._offset`: convert, add or subtract (clamping at zero on
subtraction), convert back. -/
def EDLReader._offset (r : EDLReader) (tc : Str) (offset : Nat) (subtract : Bool) :
    Except Err Str :=
  match r.fps with
  | .error e => .error e
  | .ok fps =>
    match tclib3.tc_to_frames tc fps with
    | .error e => .error e
    | .ok frames =>
      let new_frames : Int :=
        if subtract then
          let nf : Int := (frames : Int) - (offset : Int)
          if nf < 0 then 0 else nf
        else (frames : Int) + (offset : Int)
      .ok (tclib3.frames_to_tc new_frames fps r.df)

/-- The offset amount computed at the top of `offset_forward` /
`offset_backward`: `int(offset)` when `frames` else
`tclib3.tc_to_frames(offset, self.fps)`. -/
def EDLReader.offsetAmount (r : EDLReader) (offset : Str) (frames : Bool) : Except Err Nat :=
  if frames then
    match parseNat offset with
    | some n => .ok n
    | none => .error .valueError
  else
    match r.fps with
    | .error e => .error e
    | .ok fps => tclib3.tc_to_frames offset fps

/-- The record-timecode assignments of one loop iteration (`event.record_in`
then `event.record_out`), surfacing the partially updated event on error. -/
def EDLReader.offsetRecordFields (r : EDLReader) (off : Nat) (sub : Bool) (e : EDLEvent) :
    EDLEvent × Option Err :=
  match r._offset e.record_in off sub with
  | .error er => (e, some er)
  | .ok ri =>
    let e1 := { e with record_in := ri }
    match r._offset e1.record_out off sub with
    | .error er => (e1, some er)
    | .ok ro => ({ e1 with record_out := ro }, none)

/-- One iteration of the offset loop: source timecodes first when requested,
then the record timecodes, mutating field by field. -/
def EDLReader.offsetEvent (r : EDLReader) (off : Nat) (sub : Bool) (osrc : Bool)
    (e : EDLEvent) : EDLEvent × Option Err :=
  if osrc then
    match r._offset e.source_in off sub with
    | .error er => (e, some er)
    | .ok si =>
      let e1 := { e with source_in := si }
      match r._offset e1.source_out off sub with
      | .error er => (e1, some er)
      | .ok so => r.offsetRecordFields off sub { e1 with source_out := so }
  else r.offsetRecordFields off sub e

/-- The `for event in self.current_events` loop: an exception leaves the
earlier events transformed and the rest untouched. -/
def EDLReader.offsetEvents (r : EDLReader) (off : Nat) (sub : Bool) (osrc : Bool) :
    List EDLEvent → List EDLEvent × Option Err
  | [] => ([], none)
  | e :: es =>
    match r.offsetEvent off sub osrc e with
    | (e1, some er) => (e1 :: es, some er)
    | (e1, none) =>
      let (es1, er) := r.offsetEvents off sub osrc es
      (e1 :: es1, er)

/-- `EDLReader.offset_forward`.  Returns the reader as the call leaves it
(partially transformed when an exception escapes mid-loop) together with the
raised error, if any. -/
def EDLReader.offset_forward (r : EDLReader) (offset : Str) (frames : Bool := false)
    (offset_src : Bool := false) : EDLReader × Option Err :=
  match r.offsetAmount offset frames with
  | .error e => (r, some e)
  | .ok off =>
    match r.offsetEvents off false offset_src r.current_events with
    | (es, some er) => ({ r with current_events := es }, some er)
    | (es, none) => ({ r with current_events := es, _isoffset := true }, none)

/-- `EDLReader.offset_backward` (subtracting, clamped at frame zero). -/
def EDLReader.offset_backward (r : EDLReader) (offset : Str) (frames : Bool := false)
    (offsetsrc_tc : Bool := false) : EDLReader × Option Err :=
  match r.offsetAmount offset frames with
  | .error e => (r, some e)
  | .ok off =>
    match r.offsetEvents off true offsetsrc_tc r.current_events with
    | (es, some er) => ({ r with current_events := es }, some er)
    | (es, none) => ({ r with current_events := es, _isoffset := true }, none)

/-- The lines `EDLReader.write` emits: header lines, a blank line, then for
each current event its rendering, its notes and a blank line. -/
def writeLines (header : List Str) (events : List EDLEvent) : List Str :=
  header ++ [[]] ++ events.foldr (fun e acc => e.render :: (e.notes ++ [] :: acc)) []

/-- `EDLReader.write` of a reader (serializes `header` and `current_events`). -/
def EDLReader.write (r : EDLReader) : List Str := writeLines r.header r.current_events

/-! ## Metadata -/

/-- The six named program segments of `Metadata` (its settable attributes). -/
inductive SegKey
  | prevon | maintitle | nexton | livingcreds | endcreds | textless
deriving DecidableEq

/-- The `Metadata` record. -/
structure Metadata where
  name : Str := []
  prevon : Str × Str := ([], [])
  maintitle : Str × Str := ([], [])
  nexton : Str × Str := ([], [])
  livingcreds : Str × Str := ([], [])
  endcreds : Str × Str := ([], [])
  textless : Str × Str := ([], [])
deriving DecidableEq

/-- The fixed `colors` table of `Metadata` as an association list. -/
def Metadata.colors : List (Str × SegKey) :=
  [(chars "ResolveColorBlue", .prevon),
   (chars "ResolveColorCyan", .maintitle),
   (chars "ResolveColorGreen", .nexton),
   (chars "ResolveColorYellow", .livingcreds),
   (chars "ResolveColorRed", .endcreds),
   (chars "ResolveColorPink", .textless)]

/-- `colors[color]` as a lookup; `none` models the `KeyError`. -/
def colorsGet (color : Str) : Option SegKey :=
  (Metadata.colors.find? (fun p => p.1 == color)).map (·.2)

/-- `setattr(self, attr, value)` over the enumerated segment attributes. -/
def setSeg (md : Metadata) (k : SegKey) (v : Str × Str) : Metadata :=
  match k with
  | .prevon => { md with prevon := v }
  | .maintitle => { md with maintitle := v }
  | .nexton => { md with nexton := v }
  | .livingcreds => { md with livingcreds := v }
  | .endcreds => { md with endcreds := v }
  | .textless => { md with textless := v }

/-- The drop-frame separator adjustment
`event.record_in[:8] + ";" + event.record_in[9:]` applied (only when the
document is drop-frame) to the value handed to frame conversion. -/
def dfAdjust (df : Bool) (record_in : Str) : Str :=
  if df then record_in.take 8 ++ ';' :: record_in.drop 9 else record_in

/-- The `for event in edlreader.current_events` loop of `Metadata.set`,
mutating one segment attribute per recognized event and stopping at the first
raised error (`KeyError`, `FrameRateUnset`, `InvalidTimecode`, `ValueError`),
surfacing the metadata as mutated so far. -/
def Metadata.setLoop (md : Metadata) (r : EDLReader) : List EDLEvent → Metadata × Option Err
  | [] => (md, none)
  | e :: es =>
    let rec_in := dfAdjust r.df e.record_in
    match colorsGet e.marker.color with
    | none => (md, some .keyError)
    | some attr =>
      match r._fps with
      | none => (md, some .frameRateUnset)
      | some fps =>
        match tclib3.tc_to_frames rec_in fps with
        | .error er => (md, some er)
        | .ok recin_frames =>
          match parseNat e.marker.duration with
          | none => (md, some .valueError)
          | some dnat =>
            let recout := tclib3.frames_to_tc ((recin_frames : Int) + (dnat : Int) - 1) fps r.df
            Metadata.setLoop (setSeg md attr (e.record_in, recout)) r es

/-- `Metadata.set`: assigns `self.name` from the file name first, then runs
the derivation loop over `current_events`. -/
def Metadata.set (md : Metadata) (r : EDLReader) : Metadata × Option Err :=
  Metadata.setLoop { md with name := r.edl_name } r r.current_events

/-! ## Operations on a parsed document (for the state-invariance claims) -/

/-- The document-transforming operations of the `EDLReader` API.  The reading
operations (`timecodes`, `timecodes_as_str`, `write`, metadata derivation) take
the reader without returning one and so cannot modify it in this model. -/
inductive DocOp
  | forward (offset : Str) (frames offset_src : Bool)
  | backward (offset : Str) (frames offsetsrc_tc : Bool)
  | reset
  | setFps (fps : Nat)

/-- Apply one operation, keeping the document state a raised error leaves
behind. -/
def applyOp (r : EDLReader) : DocOp → EDLReader
  | .forward offset frames offset_src => (r.offset_forward offset frames offset_src).1
  | .backward offset frames osrc => (r.offset_backward offset frames osrc).1
  | .reset => r.reset
  | .setFps fps => r.set_fps fps

def applyOps (r : EDLReader) : List DocOp → EDLReader
  | [] => r
  | op :: ops => applyOps (applyOp r op) ops

/-- A timecode string is canonical for a rate and drop-frame flag when
converting it to frames and back reproduces it exactly. -/
def canonicalTC (fps : Nat) (df : Bool) (tc : Str) : Bool :=
  match tclib3.tc_to_frames tc fps with
  | .ok n => tclib3.frames_to_tc (n : Int) fps df == tc
  | .error _ => false

/-- The raw event a constructed event corresponds to (proof helper). -/
def rawOf (e : EDLEvent) : Raw := (fieldsOf e, e.notes)

/-- The event lines `write` emits without the blank separators (proof helper). -/
def evLines : List EDLEvent → List Str
  | [] => []
  | e :: es => e.render :: (e.notes ++ evLines es)

/-- Specification of the parser's event accumulation: threading the pending
raw event through a list of events (proof helper). -/
def scanEvsSpec (E : List Raw) (P : Raw) : List EDLEvent → List Raw × Raw
  | [] => (E, P)
  | e :: es => scanEvsSpec (E ++ [P]) (fieldsOf e, e.notes) es

/-! ## Well-formedness predicates established by parsing (proof helpers) -/

/-- A token produced by splitting an event line: non-empty, space-free. -/
def GoodTok (t : Str) : Prop := t ≠ [] ∧ ∀ x ∈ t, x ≠ ' '

/-- Event info produced from a digit-led line. -/
def GoodInfo (I : List Str) : Prop := (∀ t ∈ I, GoodTok t) ∧ digitLed (I.headD []) = true

/-- Comment lines: non-empty and not event-start lines. -/
def GoodCom (C : List Str) : Prop := ∀ l ∈ C, l ≠ [] ∧ digitLed l = false

def GoodRaw (r : Raw) : Prop := GoodInfo r.1 ∧ GoodCom r.2

/-- The parser-state invariant over non-empty input lines. -/
def ParseInv (st : PSt) : Prop :=
  (∀ l ∈ st.header, l ≠ [] ∧ digitLed l = false) ∧
  (∀ r ∈ st.events, GoodRaw r) ∧
  (st.is_event = true → GoodInfo st.event_info ∧ GoodCom st.comment_lines) ∧
  (st.is_event = false → st.event_info = [] ∧ st.comment_lines = [])

/-- Between events the comment buffer is empty. -/
def BufInv (st : PSt) : Prop := st.is_event = false → st.comment_lines = []

/-- The positional fields of an event are non-empty and space-free. -/
def FieldsOK (e : EDLEvent) : Prop := ∀ t ∈ fieldsOf e, t ≠ [] ∧ ∀ x ∈ t, x ≠ ' '

/-- The notes of an event are non-empty non-event-start lines. -/
def NotesOK (e : EDLEvent) : Prop := ∀ l ∈ e.notes, l ≠ [] ∧ digitLed l = false

/-- The shape `parseHeaderAndEvents false` gives every event it constructs. -/
def EvOK (e : EDLEvent) : Prop :=
  FieldsOK e ∧ digitLed e.event_number = true ∧ NotesOK e ∧ e.marker = EDLMarker.mk' [] [] []

/-! ## Lemmas: splitting and tokenization -/

theorem splitBy_ne_nil (p : Char → Bool) (s : List Char) : splitBy p s ≠ [] := by
  induction s with
  | nil => simp [splitBy]
  | cons c cs ih =>
    simp only [splitBy]
    split
    · simp
    · split
      · simp
      · simp

theorem splitBy_nosep (p : Char → Bool) (w : List Char) (hw : ∀ x ∈ w, p x = false) :
    splitBy p w = [w] := by
  induction w with
  | nil => rfl
  | cons c cs ih =>
    have hc : p c = false := hw c (by simp)
    have ih2 := ih (fun x hx => hw x (by simp [hx]))
    simp only [splitBy, hc, Bool.false_eq_true, if_false, ih2]

theorem splitBy_word_sep (p : Char → Bool) (w : List Char) (c : Char) (s : List Char)
    (hw : ∀ x ∈ w, p x = false) (hc : p c = true) :
    splitBy p (w ++ c :: s) = w :: splitBy p s := by
  induction w with
  | nil => simp only [List.nil_append, splitBy, hc, if_true]
  | cons x xs ih =>
    have hx : p x = false := hw x (by simp)
    have ih2 := ih (fun y hy => hw y (by simp [hy]))
    simp only [List.cons_append, splitBy, hx, Bool.false_eq_true, if_false, List.append_eq, ih2]

theorem splitBy_parts_nosep {p : Char → Bool} {s : List Char} :
    ∀ t ∈ splitBy p s, ∀ x ∈ t, p x = false := by
  induction s with
  | nil => intro t ht x hx; simp [splitBy] at ht; subst ht; simp at hx
  | cons c cs ih =>
    intro t ht x hx
    by_cases hc : p c = true
    · simp only [splitBy, hc, if_true, List.mem_cons] at ht
      rcases ht with h | h
      · subst h; simp at hx
      · exact ih t h x hx
    · have hc2 : p c = false := by simpa using hc
      simp only [splitBy, hc2, Bool.false_eq_true, if_false] at ht
      rcases hsp : splitBy p cs with _ | ⟨w, ws⟩
      · exact absurd hsp (splitBy_ne_nil p cs)
      · rw [hsp] at ht
        simp only [List.mem_cons] at ht
        rcases ht with h | h
        · subst h
          rcases List.mem_cons.mp hx with h2 | h2
          · subst h2; exact hc2
          · exact ih w (by simp [hsp]) x h2
        · exact ih t (by simp [hsp, h]) x hx

theorem splitBy_first (p : Char → Bool) (c : Char) (cs : List Char) (hc : p c = false) :
    ∃ w ws, splitBy p cs = w :: ws ∧ splitBy p (c :: cs) = (c :: w) :: ws := by
  rcases hsp : splitBy p cs with _ | ⟨w, ws⟩
  · exact absurd hsp (splitBy_ne_nil p cs)
  · exact ⟨w, ws, rfl, by simp only [splitBy, hc, Bool.false_eq_true, if_false, hsp]⟩

theorem tokens_sp_cons (s : Str) : tokens (' ' :: s) = tokens s := by
  simp [tokens, splitBy]

theorem tokens_word_sep (w : Str) (s : Str) (hw0 : w ≠ []) (hw : ∀ x ∈ w, x ≠ ' ') :
    tokens (w ++ ' ' :: s) = w :: tokens s := by
  have h := splitBy_word_sep (· == ' ') w ' ' s
    (fun x hx => by simpa using hw x hx) (by simp)
  simp only [tokens, h, List.filter_cons]
  simp [hw0]

theorem tokens_word (w : Str) (hw0 : w ≠ []) (hw : ∀ x ∈ w, x ≠ ' ') :
    tokens w = [w] := by
  have h := splitBy_nosep (· == ' ') w (fun x hx => by simpa using hw x hx)
  simp only [tokens, h, List.filter_cons]
  simp [hw0]

theorem tokens_sp (s : Str) : ∀ k, tokens (sp k ++ s) = tokens s := by
  intro k
  induction k with
  | zero => simp [sp]
  | succ n ih =>
    have h : sp (n + 1) ++ s = ' ' :: (sp n ++ s) := by simp [sp, List.replicate_succ]
    rw [h, tokens_sp_cons, ih]

theorem tokens_word_sp (w : Str) (s : Str) (k : Nat) (hw0 : w ≠ []) (hw : ∀ x ∈ w, x ≠ ' ') :
    tokens (w ++ (sp (k + 1) ++ s)) = w :: tokens s := by
  have h1 : sp (k + 1) ++ s = ' ' :: (sp k ++ s) := by simp [sp, List.replicate_succ]
  rw [h1, tokens_word_sep _ _ hw0 hw, tokens_sp]

theorem tokens_mem {l : Str} : ∀ t ∈ tokens l, GoodTok t := by
  intro t ht
  simp only [tokens, List.mem_filter] at ht
  refine ⟨by simpa using ht.2, ?_⟩
  intro x hx
  have := splitBy_parts_nosep t ht.1 x hx
  simpa using this

theorem tokens_digitLed {l : Str} (h : digitLed l = true) :
    ∃ t ts, tokens l = t :: ts ∧ digitLed t = true := by
  match l with
  | [] => simp [digitLed] at h
  | c :: cs =>
    have hdig : c.isDigit = true := h
    have hc : (c == ' ') = false := by
      have hne : c ≠ ' ' := by
        intro he; subst he; simp [Char.isDigit] at hdig
      simpa using hne
    obtain ⟨w, ws, _, h2⟩ := splitBy_first (· == ' ') c cs hc
    refine ⟨c :: w, (ws.filter (fun t => !t.isEmpty)), ?_, hdig⟩
    simp [tokens, h2, List.filter_cons]

theorem tokens_ne_nil {l : Str} (h : digitLed l = true) : tokens l ≠ [] := by
  obtain ⟨t, ts, h1, _⟩ := tokens_digitLed h
  simp [h1]

theorem tokens_goodInfo {l : Str} (h : digitLed l = true) : GoodInfo (tokens l) := by
  obtain ⟨t, ts, h1, h2⟩ := tokens_digitLed h
  exact ⟨tokens_mem, by simp [h1, h2]⟩

theorem digitLed_append {a : Str} (b : Str) (ha : a ≠ []) :
    digitLed (a ++ b) = digitLed a := by
  match a with
  | [] => exact absurd rfl ha
  | c :: cs => rfl

/-! ## Lemmas: event rendering -/

theorem tokens_word_sp' (w : Str) (s : Str) (k : Nat) (hk : k ≠ 0) (hw0 : w ≠ [])
    (hw : ∀ x ∈ w, x ≠ ' ') : tokens (w ++ (sp k ++ s)) = w :: tokens s := by
  match k with
  | 0 => exact absurd rfl hk
  | k + 1 => exact tokens_word_sp w s k hw0 hw

theorem tokens_render {e : EDLEvent} (hf : FieldsOK e) : tokens e.render = fieldsOf e := by
  have g1 := hf e.event_number (by simp [fieldsOf])
  have g2 := hf e.reel_name (by simp [fieldsOf])
  have g3 := hf e.channel (by simp [fieldsOf])
  have g4 := hf e.transition (by simp [fieldsOf])
  have g5 := hf e.source_in (by simp [fieldsOf])
  have g6 := hf e.source_out (by simp [fieldsOf])
  have g7 := hf e.record_in (by simp [fieldsOf])
  have g8 := hf e.record_out (by simp [fieldsOf])
  unfold EDLEvent.render
  simp only [List.append_assoc]
  rw [tokens_word_sp' _ _ 2 (by decide) g1.1 g1.2,
      tokens_word_sp' _ _ 5 (by decide) g2.1 g2.2,
      tokens_word_sp' _ _ 5 (by decide) g3.1 g3.2,
      tokens_word_sp' _ _ 8 (by decide) g4.1 g4.2,
      tokens_word_sp' _ _ 1 (by decide) g5.1 g5.2,
      tokens_word_sp' _ _ 1 (by decide) g6.1 g6.2,
      tokens_word_sp' _ _ 1 (by decide) g7.1 g7.2,
      tokens_word _ g8.1 g8.2]
  rfl

theorem render_digitLed {e : EDLEvent} (h : digitLed e.event_number = true) :
    digitLed e.render = true := by
  have hne : e.event_number ≠ [] := by
    intro hn; rw [hn] at h; simp [digitLed] at h
  unfold EDLEvent.render
  simp only [List.append_assoc]
  rw [digitLed_append _ hne]
  exact h

theorem render_ne_nil {e : EDLEvent} (h : digitLed e.event_number = true) :
    e.render ≠ [] := by
  have hne : e.event_number ≠ [] := by
    intro hn; rw [hn] at h; simp [digitLed] at h
  unfold EDLEvent.render
  simp only [List.append_assoc]
  simp [hne]

/-! ## Lemmas: single parse steps -/

theorem step_comment {l : Str} (H : List Str) (E : List Raw) (I C : List Str) (bh : Bool)
    (hl : digitLed l = false) :
    stepLine ⟨H, E, I, C, true, bh⟩ l = ⟨H, E, I, C ++ [l], true, bh⟩ := by
  simp [stepLine, flushIf, hl]

theorem step_event_true {l : Str} (H : List Str) (E : List Raw) (I C : List Str) (bh : Bool)
    (hl : digitLed l = true) :
    stepLine ⟨H, E, I, C, true, bh⟩ l = ⟨H, E ++ [(I, C)], tokens l, [], true, false⟩ := by
  simp [stepLine, flushIf, hl]

theorem step_event_false {l : Str} (H : List Str) (E : List Raw) (I C : List Str) (bh : Bool)
    (hl : digitLed l = true) :
    stepLine ⟨H, E, I, C, false, bh⟩ l = ⟨H, E, tokens l, C, true, false⟩ := by
  simp [stepLine, flushIf, hl]

theorem step_header {l : Str} (H : List Str) (E : List Raw) (I C : List Str)
    (hl : digitLed l = false) :
    stepLine ⟨H, E, I, C, false, true⟩ l = ⟨H ++ [l], E, I, C, false, true⟩ := by
  simp [stepLine, flushIf, hl]

theorem step_skip {l : Str} (H : List Str) (E : List Raw) (I C : List Str)
    (hl : digitLed l = false) :
    stepLine ⟨H, E, I, C, false, false⟩ l = ⟨H, E, I, C, false, false⟩ := by
  simp [stepLine, flushIf, hl]

/-! ## Lemmas: scanning runs of lines -/

theorem scan_append (a : List Str) : ∀ (st : PSt) (b : List Str),
    scan st (a ++ b) = scan (scan st a) b := by
  induction a with
  | nil => intro st b; rfl
  | cons l ls ih => intro st b; simp only [List.cons_append, scan]; exact ih _ b

theorem scan_comments (cs : List Str) : ∀ (H : List Str) (E : List Raw) (I C : List Str)
    (bh : Bool), (∀ l ∈ cs, digitLed l = false) →
    scan ⟨H, E, I, C, true, bh⟩ cs = ⟨H, E, I, C ++ cs, true, bh⟩ := by
  induction cs with
  | nil => intro H E I C bh _; simp [scan]
  | cons l ls ih =>
    intro H E I C bh hcs
    simp only [scan, step_comment H E I C bh (hcs l (by simp))]
    rw [ih H E I (C ++ [l]) bh (fun x hx => hcs x (by simp [hx]))]
    simp

theorem scan_header_lines (hs : List Str) : ∀ (H : List Str) (E : List Raw) (I C : List Str),
    (∀ l ∈ hs, digitLed l = false) →
    scan ⟨H, E, I, C, false, true⟩ hs = ⟨H ++ hs, E, I, C, false, true⟩ := by
  induction hs with
  | nil => intro H E I C _; simp [scan]
  | cons l ls ih =>
    intro H E I C hhs
    simp only [scan, step_header H E I C (hhs l (by simp))]
    rw [ih (H ++ [l]) E I C (fun x hx => hhs x (by simp [hx]))]
    simp

theorem scan_evs (evs : List EDLEvent) : ∀ (H : List Str) (E : List Raw) (I C : List Str),
    (∀ e ∈ evs, FieldsOK e ∧ digitLed e.event_number = true ∧ NotesOK e) →
    scan ⟨H, E, I, C, true, false⟩ (evLines evs) =
      ⟨H, (scanEvsSpec E (I, C) evs).1, (scanEvsSpec E (I, C) evs).2.1,
        (scanEvsSpec E (I, C) evs).2.2, true, false⟩ := by
  induction evs with
  | nil => intro H E I C _; simp [scan, evLines, scanEvsSpec]
  | cons e es ih =>
    intro H E I C hevs
    obtain ⟨hf, hd, hn⟩ := hevs e (by simp)
    have hspec : scanEvsSpec E (I, C) (e :: es) =
        scanEvsSpec (E ++ [(I, C)]) (fieldsOf e, e.notes) es := rfl
    simp only [evLines, scan, step_event_true H E I C false (render_digitLed hd)]
    rw [scan_append, scan_comments _ _ _ _ _ _ (fun l hl => (hn l hl).2)]
    rw [tokens_render hf]
    rw [ih H (E ++ [(I, C)]) (fieldsOf e) ([] ++ e.notes)
      (fun x hx => hevs x (by simp [hx]))]
    rw [hspec]
    simp

theorem scanEvsSpec_spec (evs : List EDLEvent) : ∀ (E : List Raw) (P : Raw),
    (scanEvsSpec E P evs).1 = E ++ (P :: evs.map rawOf).dropLast ∧
    (P :: evs.map rawOf).getLast? = some (scanEvsSpec E P evs).2 := by
  induction evs with
  | nil => intro E P; simp [scanEvsSpec]
  | cons e es ih =>
    intro E P
    have hspec : scanEvsSpec E P (e :: es) = scanEvsSpec (E ++ [P]) (rawOf e) es := rfl
    have h := ih (E ++ [P]) (rawOf e)
    refine ⟨?_, ?_⟩
    · rw [hspec, h.1]
      simp only [List.map_cons, List.dropLast_cons₂, List.append_assoc, List.singleton_append]
    · rw [hspec]
      simp only [List.map_cons]
      rw [List.getLast?_cons_cons]
      exact h.2

/-! ## Lemmas: event construction -/

theorem mkEvent_rawOf {e : EDLEvent} (hm : e.marker = EDLMarker.mk' [] [] []) :
    mkEvent false (rawOf e) = .ok e := by
  cases e with
  | mk en rl ch tr si so ri ro mk notes =>
    simp only [EDLEvent.marker] at hm
    subst hm
    rfl

theorem mkEvent_false_ok_inv {I C : List Str} {e : EDLEvent}
    (h : mkEvent false (I, C) = .ok e) :
    I = fieldsOf e ∧ C = e.notes ∧ e.marker = EDLMarker.mk' [] [] [] := by
  simp only [mkEvent, Bool.false_eq_true, if_false] at h
  split at h
  · injection h with h2
    subst h2
    exact ⟨rfl, rfl, rfl⟩
  · cases h

theorem mkEvent_false_err {r0 : Raw} {er : Err} (h : mkEvent false r0 = .error er) :
    er = .malformedEvent := by
  simp only [mkEvent, Bool.false_eq_true, if_false] at h
  split at h
  · cases h
  · injection h with h2
    exact h2.symm

theorem mkEvent_false_short {I C : List Str} (h : I.length ≠ 8) :
    mkEvent false (I, C) = .error .malformedEvent := by
  match I, h with
  | [], _ => rfl
  | [a], _ => rfl
  | [a, b], _ => rfl
  | [a, b, c], _ => rfl
  | [a, b, c, d], _ => rfl
  | [a, b, c, d, e2], _ => rfl
  | [a, b, c, d, e2, f], _ => rfl
  | [a, b, c, d, e2, f, g], _ => rfl
  | [a, b, c, d, e2, f, g, h8], hlen => exact absurd (by simp) hlen
  | a :: b :: c :: d :: e2 :: f :: g :: h8 :: i :: rest, _ => rfl

theorem mkEvents_ok_of : ∀ evs : List EDLEvent,
    (∀ e ∈ evs, mkEvent false (rawOf e) = .ok e) →
    mkEvents false (evs.map rawOf) = .ok evs := by
  intro evs
  induction evs with
  | nil => intro _; rfl
  | cons e es ih =>
    intro h
    simp only [List.map_cons, mkEvents, h e (by simp), ih (fun x hx => h x (by simp [hx]))]

theorem mkEvents_forall2 {rm : Bool} : ∀ {raws : List Raw} {evs : List EDLEvent},
    mkEvents rm raws = .ok evs →
    List.Forall₂ (fun r e => mkEvent rm r = .ok e) raws evs := by
  intro raws
  induction raws with
  | nil =>
    intro evs h
    simp only [mkEvents] at h
    injection h with h2
    subst h2
    exact .nil
  | cons r rs ih =>
    intro evs h
    simp only [mkEvents] at h
    cases hr : mkEvent rm r with
    | error e => rw [hr] at h; cases h
    | ok ev =>
      rw [hr] at h
      cases hrs : mkEvents rm rs with
      | error e => rw [hrs] at h; cases h
      | ok evs2 =>
        rw [hrs] at h
        injection h with h2
        subst h2
        exact .cons hr (ih hrs)

theorem mkEvents_false_err : ∀ raws : List Raw,
    (∃ raw ∈ raws, mkEvent false raw = .error Err.malformedEvent) →
    mkEvents false raws = .error .malformedEvent := by
  intro raws
  induction raws with
  | nil => intro h; simp at h
  | cons r rs ih =>
    intro h
    simp only [mkEvents]
    cases hr : mkEvent false r with
    | error e =>
      have he : e = Err.malformedEvent := mkEvent_false_err hr
      subst he
      rfl
    | ok ev =>
      obtain ⟨raw, hmem, hraw⟩ := h
      rcases List.mem_cons.mp hmem with h1 | h1
      · subst h1; rw [hr] at hraw; cases hraw
      · rw [ih ⟨raw, h1, hraw⟩]

theorem forall2_mem_right {α β : Type} {R : α → β → Prop} : ∀ {l : List α} {l' : List β},
    List.Forall₂ R l l' → ∀ b ∈ l', ∃ a ∈ l, R a b := by
  intro l l' h
  induction h with
  | nil => intro b hb; simp at hb
  | cons hr _ ih =>
    intro b hb
    rcases List.mem_cons.mp hb with h1 | h1
    · subst h1; exact ⟨_, by simp, hr⟩
    · obtain ⟨a, ha, har⟩ := ih b h1
      exact ⟨a, by simp [ha], har⟩

theorem forall2_getLast? {α β : Type} {R : α → β → Prop} : ∀ {l : List α} {l' : List β},
    List.Forall₂ R l l' → ∀ {x : α}, l.getLast? = some x →
    ∃ y, l'.getLast? = some y ∧ R x y := by
  intro l l' h
  induction h with
  | nil => intro x hx; simp at hx
  | @cons a b as bs hr hrest ih =>
    intro x hx
    cases has : as with
    | nil =>
      subst has
      cases hrest
      simp only [List.getLast?_singleton] at hx ⊢
      injection hx with h2
      subst h2
      exact ⟨b, rfl, hr⟩
    | cons a2 as2 =>
      subst has
      cases hrest with
      | cons hr2 hrest2 =>
        rw [List.getLast?_cons_cons] at hx
        obtain ⟨y, hy, hxy⟩ := ih hx
        refine ⟨y, ?_, hxy⟩
        rw [List.getLast?_cons_cons]
        exact hy

/-! ## Lemmas: the parser-state invariant -/

theorem parseInv_init : ParseInv initSt := by
  refine ⟨?_, ?_, ?_, ?_⟩ <;> simp [initSt]

theorem parseInv_step {st : PSt} {l : Str} (hinv : ParseInv st) (hl : l ≠ []) :
    ParseInv (stepLine st l) := by
  obtain ⟨H, E, I, C, be, bh⟩ := st
  obtain ⟨ih, ie, it, iff'⟩ := hinv
  cases be with
  | true =>
    cases hdl : digitLed l with
    | true =>
      rw [step_event_true H E I C bh hdl]
      refine ⟨ih, ?_, ?_, ?_⟩
      · intro r hr
        rcases List.mem_append.mp hr with h1 | h1
        · exact ie r h1
        · simp at h1
          subst h1
          exact it rfl
      · intro _
        exact ⟨tokens_goodInfo hdl, by intro x hx; simp at hx⟩
      · intro hc; cases hc
    | false =>
      rw [step_comment H E I C bh hdl]
      refine ⟨ih, ie, ?_, ?_⟩
      · intro _
        refine ⟨(it rfl).1, ?_⟩
        intro x hx
        rcases List.mem_append.mp hx with h1 | h1
        · exact (it rfl).2 x h1
        · simp at h1; subst h1; exact ⟨hl, hdl⟩
      · intro hc; cases hc
  | false =>
    cases hdl : digitLed l with
    | true =>
      rw [step_event_false H E I C bh hdl]
      refine ⟨ih, ie, ?_, ?_⟩
      · intro _
        refine ⟨tokens_goodInfo hdl, ?_⟩
        rw [(iff' rfl).2]
        intro x hx; simp at hx
      · intro hc; cases hc
    | false =>
      cases bh with
      | true =>
        rw [step_header H E I C hdl]
        refine ⟨?_, ie, it, iff'⟩
        intro x hx
        rcases List.mem_append.mp hx with h1 | h1
        · exact ih x h1
        · simp at h1; subst h1; exact ⟨hl, hdl⟩
      | false =>
        rw [step_skip H E I C hdl]
        exact ⟨ih, ie, it, iff'⟩

theorem parseInv_scan : ∀ (ls : List Str) (st : PSt), ParseInv st → (∀ l ∈ ls, l ≠ []) →
    ParseInv (scan st ls) := by
  intro ls
  induction ls with
  | nil => intro st h _; exact h
  | cons l rest ih =>
    intro st h hls
    exact ih _ (parseInv_step h (hls l (by simp))) (fun x hx => hls x (by simp [hx]))

theorem finishRaws_goodRaw {st : PSt} (hinv : ParseInv st) :
    ∀ r ∈ finishRaws st, GoodRaw r := by
  obtain ⟨H, E, I, C, be, bh⟩ := st
  obtain ⟨_, ie, it, iff'⟩ := hinv
  intro r hr
  simp only [finishRaws] at hr
  split at hr
  · next hcond =>
    rcases List.mem_append.mp hr with h1 | h1
    · exact ie r h1
    · simp at h1
      subst h1
      cases be with
      | true => exact it rfl
      | false => exact absurd (iff' rfl).1 hcond.1
  · exact ie r hr

/-! ## Lemmas: the comment-buffer invariant and raw-event membership -/

theorem bufInv_init : BufInv initSt := by intro _; rfl

theorem bufInv_step {st : PSt} (l : Str) (h : BufInv st) : BufInv (stepLine st l) := by
  obtain ⟨H, E, I, C, be, bh⟩ := st
  cases be with
  | true =>
    cases hdl : digitLed l with
    | true => rw [step_event_true H E I C bh hdl]; intro hc; cases hc
    | false => rw [step_comment H E I C bh hdl]; intro hc; cases hc
  | false =>
    cases hdl : digitLed l with
    | true => rw [step_event_false H E I C bh hdl]; intro hc; cases hc
    | false =>
      cases bh with
      | true => rw [step_header H E I C hdl]; exact h
      | false => rw [step_skip H E I C hdl]; exact h

theorem bufInv_scan : ∀ (ls : List Str) (st : PSt), BufInv st → BufInv (scan st ls) := by
  intro ls
  induction ls with
  | nil => intro st h; exact h
  | cons l rest ih => intro st h; exact ih _ (bufInv_step l h)

theorem mem_events_stepLine {st : PSt} {raw : Raw} (l : Str) (h : raw ∈ st.events) :
    raw ∈ (stepLine st l).events := by
  obtain ⟨H, E, I, C, be, bh⟩ := st
  cases be with
  | true =>
    cases hdl : digitLed l with
    | true => rw [step_event_true H E I C bh hdl]; exact List.mem_append_left _ h
    | false => rw [step_comment H E I C bh hdl]; exact h
  | false =>
    cases hdl : digitLed l with
    | true => rw [step_event_false H E I C bh hdl]; exact h
    | false =>
      cases bh with
      | true => rw [step_header H E I C hdl]; exact h
      | false => rw [step_skip H E I C hdl]; exact h

theorem mem_events_scan : ∀ (ls : List Str) (st : PSt) (raw : Raw), raw ∈ st.events →
    raw ∈ (scan st ls).events := by
  intro ls
  induction ls with
  | nil => intro st raw h; exact h
  | cons l rest ih => intro st raw h; exact ih _ raw (mem_events_stepLine l h)

theorem mem_finishRaws {st : PSt} {raw : Raw} (h : raw ∈ st.events) : raw ∈ finishRaws st := by
  simp only [finishRaws]
  split
  · exact List.mem_append_left _ h
  · exact h

theorem pending_flushed : ∀ (post : List Str) (H : List Str) (E : List Raw) (I C : List Str)
    (bh : Bool), post ≠ [] → I ≠ [] →
    ∃ com, (I, com) ∈ finishRaws (scan ⟨H, E, I, C, true, bh⟩ post) := by
  intro post
  induction post with
  | nil => intro H E I C bh hne _; exact absurd rfl hne
  | cons l rest ih =>
    intro H E I C bh _ hI
    cases hdl : digitLed l with
    | true =>
      refine ⟨C, ?_⟩
      show (I, C) ∈ finishRaws (scan (stepLine _ l) rest)
      rw [step_event_true H E I C bh hdl]
      exact mem_finishRaws (mem_events_scan rest _ _ (by simp))
    | false =>
      cases rest with
      | nil =>
        refine ⟨C ++ [l], ?_⟩
        show (I, C ++ [l]) ∈ finishRaws (scan (stepLine _ l) [])
        rw [step_comment H E I C bh hdl]
        show (I, C ++ [l]) ∈ finishRaws ⟨H, E, I, C ++ [l], true, bh⟩
        simp only [finishRaws]
        rw [if_pos ⟨hI, by simp⟩]
        simp
      | cons l2 rest2 =>
        obtain ⟨com, hcom⟩ := ih H E I (C ++ [l]) bh (by simp) hI
        refine ⟨com, ?_⟩
        show (I, com) ∈ finishRaws (scan (stepLine _ l) (l2 :: rest2))
        rw [step_comment H E I C bh hdl]
        exact hcom

/-! ## Lemmas: writing and re-reading -/

theorem filter_all_keep {ls : List Str} (h : ∀ l ∈ ls, l ≠ []) :
    ls.filter (fun l => !l.isEmpty) = ls := by
  induction ls with
  | nil => rfl
  | cons l rest ih =>
    rw [List.filter_cons]
    rw [if_pos (by simpa using h l (by simp))]
    rw [ih (fun x hx => h x (by simp [hx]))]

theorem filter_evw : ∀ evs : List EDLEvent,
    (∀ e ∈ evs, digitLed e.event_number = true ∧ NotesOK e) →
    (evs.foldr (fun e acc => e.render :: (e.notes ++ [] :: acc)) []).filter
      (fun l => !l.isEmpty) = evLines evs := by
  intro evs
  induction evs with
  | nil => intro _; rfl
  | cons e es ih =>
    intro h
    obtain ⟨hd, hn⟩ := h e (by simp)
    simp only [List.foldr_cons, evLines]
    rw [List.filter_cons, if_pos (by simpa using render_ne_nil hd)]
    rw [List.filter_append]
    rw [filter_all_keep (fun l hl => (hn l hl).1)]
    rw [List.filter_cons]
    norm_num
    exact ih (fun x hx => h x (by simp [hx]))

theorem readLines_writeLines {hd : List Str} {evs : List EDLEvent}
    (hh : ∀ l ∈ hd, l ≠ [])
    (he : ∀ e ∈ evs, digitLed e.event_number = true ∧ NotesOK e) :
    readLines (writeLines hd evs) = hd ++ evLines evs := by
  simp only [readLines, writeLines, List.filter_append]
  rw [filter_all_keep hh, filter_evw evs he]
  simp [List.filter_cons]

/-! ## The round-trip rebuild -/

theorem parse_rebuild {hd : List Str} {evs : List EDLEvent}
    (hh : ∀ l ∈ hd, l ≠ [] ∧ digitLed l = false)
    (he : ∀ e ∈ evs, EvOK e)
    (hl : ∀ e, evs.getLast? = some e → e.notes ≠ []) :
    parseHeaderAndEvents false (readLines (writeLines hd evs)) = .ok (hd, evs) := by
  rw [readLines_writeLines (fun l h2 => (hh l h2).1)
    (fun e h2 => ⟨(he e h2).2.1, (he e h2).2.2.1⟩)]
  have hscan0 : scan initSt hd = ⟨[] ++ hd, [], [], [], false, true⟩ :=
    scan_header_lines hd [] [] [] [] (fun l h2 => (hh l h2).2)
  cases evs with
  | nil =>
    simp only [evLines, List.append_nil, parseHeaderAndEvents, hscan0]
    rfl
  | cons e0 rest =>
    have h0 : EvOK e0 := he e0 (by simp)
    simp only [parseHeaderAndEvents, evLines, scan_append, hscan0, scan]
    rw [step_event_false ([] ++ hd) [] [] [] true (render_digitLed h0.2.1)]
    rw [tokens_render h0.1]
    rw [scan_comments e0.notes ([] ++ hd) [] (fieldsOf e0) [] false
      (fun l h2 => (h0.2.2.1 l h2).2)]
    rw [scan_evs rest ([] ++ hd) [] (fieldsOf e0) ([] ++ e0.notes)
      (fun e h2 => ⟨(he e (by simp [h2])).1,
        (he e (by simp [h2])).2.1, (he e (by simp [h2])).2.2.1⟩)]
    have hspec := scanEvsSpec_spec rest [] (fieldsOf e0, [] ++ e0.notes)
    have hraw0 : ((fieldsOf e0, [] ++ e0.notes) : Raw) = rawOf e0 := by
      simp [rawOf]
    rw [hraw0] at hspec
    rw [hraw0]
    have hlist : rawOf e0 :: rest.map rawOf = (e0 :: rest).map rawOf := by simp
    rw [hlist] at hspec
    obtain ⟨y, hy1, hy2⟩ : ∃ y, ((e0 :: rest).map rawOf).getLast? = some y ∧
        (scanEvsSpec [] (rawOf e0) rest).2 = y :=
      ⟨(scanEvsSpec [] (rawOf e0) rest).2, hspec.2, rfl⟩
    obtain ⟨el, hel1, hel2⟩ : ∃ el, (e0 :: rest).getLast? = some el ∧ rawOf el = y := by
      rw [List.getLast?_map] at hy1
      rcases hgl : (e0 :: rest).getLast? with _ | el
      · simp at hgl
      · rw [hgl] at hy1
        refine ⟨el, rfl, ?_⟩
        simpa using hy1
    have hfin : finishRaws ⟨[] ++ hd, (scanEvsSpec [] (rawOf e0) rest).1,
        (scanEvsSpec [] (rawOf e0) rest).2.1, (scanEvsSpec [] (rawOf e0) rest).2.2,
        true, false⟩ = (e0 :: rest).map rawOf := by
      simp only [finishRaws]
      have hpair : ((scanEvsSpec [] (rawOf e0) rest).2.1, (scanEvsSpec [] (rawOf e0) rest).2.2)
          = (scanEvsSpec [] (rawOf e0) rest).2 := rfl
      rw [if_pos ?side]
      case side =>
        constructor
        · show (scanEvsSpec [] (rawOf e0) rest).2.1 ≠ []
          rw [hy2, ← hel2]
          simp [rawOf, fieldsOf]
        · show (scanEvsSpec [] (rawOf e0) rest).2.2 ≠ []
          rw [hy2, ← hel2]
          simpa [rawOf] using hl el hel1
      · show (scanEvsSpec [] (rawOf e0) rest).1 ++
          [((scanEvsSpec [] (rawOf e0) rest).2.1, (scanEvsSpec [] (rawOf e0) rest).2.2)] = _
        rw [hspec.1, hpair, hy2, ← hel2]
        rw [show ([] : List Raw) ++ ((e0 :: rest).map rawOf).dropLast =
          ((e0 :: rest).map rawOf).dropLast from by simp]
        exact List.dropLast_append_getLast? (rawOf el) (by rw [hy1, hel2]; exact rfl)
    rw [hfin]
    rw [mkEvents_ok_of _ (fun e h2 => mkEvent_rawOf (he e h2).2.2.2)]
    simp

theorem parse_false_inv {lines : List Str} {hd : List Str} {evs : List EDLEvent}
    (h1 : ∀ l ∈ lines, l ≠ [])
    (h2 : parseHeaderAndEvents false lines = .ok (hd, evs)) :
    (∀ l ∈ hd, l ≠ [] ∧ digitLed l = false) ∧ (∀ e ∈ evs, EvOK e) := by
  have hinv : ParseInv (scan initSt lines) := parseInv_scan lines initSt parseInv_init h1
  simp only [parseHeaderAndEvents] at h2
  cases hm : mkEvents false (finishRaws (scan initSt lines)) with
  | error er => rw [hm] at h2; cases h2
  | ok evs0 =>
    rw [hm] at h2
    injection h2 with h3
    have hhd : (scan initSt lines).header = hd := congrArg Prod.fst h3
    have hevs : evs0 = evs := congrArg Prod.snd h3
    subst hevs
    constructor
    · intro l hlm
      rw [← hhd] at hlm
      exact hinv.1 l hlm
    · intro e hem
      obtain ⟨raw, hrm, hre⟩ := forall2_mem_right (mkEvents_forall2 hm) e hem
      have hg : GoodRaw raw := finishRaws_goodRaw hinv raw hrm
      have hi := mkEvent_false_ok_inv (I := raw.1) (C := raw.2) (e := e) hre
      refine ⟨?_, ?_, ?_, hi.2.2⟩
      · intro t ht
        exact hg.1.1 t (by rw [hi.1]; exact ht)
      · have := hg.1.2
        rw [hi.1] at this
        simpa [fieldsOf] using this
      · intro l hlm
        exact hg.2 l (by rw [hi.2.1]; exact hlm)

/-- C1: the round-trip claim fails as stated.  With marker extraction enabled,
parsing this well-formed two-line document succeeds, but serializing it with
the Writer strips the marker line's pipe-delimited suffix, so re-parsing the
serialized text fails with the malformed-marker error instead of yielding the
original event sequence. -/
theorem c1_counterexample :
    (match parseHeaderAndEvents true
        [chars "001 AB V C 00:00:00:00 00:00:00:01 00:00:00:02 00:00:00:03",
         chars "SOME |M:ResolveColorRed|D:N|F:10"] with
     | .ok (hd, evs) => parseHeaderAndEvents true (readLines (writeLines hd evs))
     | .error e => .error e) = .error Err.malformedMarker ∧
    (parseHeaderAndEvents true
        [chars "001 AB V C 00:00:00:00 00:00:00:01 00:00:00:02 00:00:00:03",
         chars "SOME |M:ResolveColorRed|D:N|F:10"]).toOption.isSome = true := by
  constructor
  · decide
  · decide

/-- C1 (amended): with marker extraction disabled, parsing a document of
non-empty lines, serializing the untransformed document with the Writer and
re-parsing the serialized text yields exactly the original header and event
sequence, provided the final parsed event — when the parse yields any — has
at least one annotation line (a parse with no events round-trips
unconditionally).  The proviso excludes the case of a note-free final parsed
event, which arises when the document ends in two adjacent event-start lines:
its serialized event line is then followed by no annotation line and is
dropped on re-parse.  With marker extraction enabled the Writer strips the
pipe-delimited suffix from every annotation line, so re-parsing cannot
reconstruct the markers of a marker-carrying document: on the counterexample
document re-parsing fails with the malformed-marker error instead of
yielding the original event sequence. -/
theorem c1_theorem (lines : List Str) {hd : List Str} {evs : List EDLEvent}
    (h1 : ∀ l ∈ lines, l ≠ [])
    (h2 : parseHeaderAndEvents false lines = .ok (hd, evs))
    (h3 : evs.getLast?.all (fun e => !e.notes.isEmpty) = true) :
    parseHeaderAndEvents false (readLines (writeLines hd evs)) = .ok (hd, evs) := by
  obtain ⟨hh, he⟩ := parse_false_inv h1 h2
  refine parse_rebuild hh he ?_
  intro e hge
  rw [hge] at h3
  simpa using h3

/-- C1 witness: a concrete well-formed document on which the amended
round-trip theorem applies. -/
theorem c1_witness :
    parseHeaderAndEvents false
      [chars "TITLE: X",
       chars "001 AB V C 00:00:00:00 00:00:00:01 00:00:00:02 00:00:00:03",
       chars "* NOTE"] =
      .ok ([chars "TITLE: X"],
        [⟨chars "001", chars "AB", chars "V", chars "C", chars "00:00:00:00",
          chars "00:00:00:01", chars "00:00:00:02", chars "00:00:00:03",
          EDLMarker.mk' [] [] [], [chars "* NOTE"]⟩]) ∧
    parseHeaderAndEvents false (readLines (writeLines [chars "TITLE: X"]
        [⟨chars "001", chars "AB", chars "V", chars "C", chars "00:00:00:00",
          chars "00:00:00:01", chars "00:00:00:02", chars "00:00:00:03",
          EDLMarker.mk' [] [] [], [chars "* NOTE"]⟩])) =
      .ok ([chars "TITLE: X"],
        [⟨chars "001", chars "AB", chars "V", chars "C", chars "00:00:00:00",
          chars "00:00:00:01", chars "00:00:00:02", chars "00:00:00:03",
          EDLMarker.mk' [] [] [], [chars "* NOTE"]⟩]) :=
  ⟨by decide, c1_theorem
    [chars "TITLE: X",
     chars "001 AB V C 00:00:00:00 00:00:00:01 00:00:00:02 00:00:00:03",
     chars "* NOTE"] (by decide) (by decide) (by decide)⟩

/-- C5: the end-of-input flush claim fails as stated.  A final event-start
line followed by zero annotation lines is not flushed: parsing a document
consisting of exactly one well-formed event line succeeds with an empty event
sequence, while the same line followed by one annotation line yields one
event. -/
theorem c5_counterexample :
    parseHeaderAndEvents false
      [chars "001 AB V C 00:00:00:00 00:00:00:01 00:00:00:02 00:00:00:03"] = .ok ([], []) ∧
    (parseHeaderAndEvents false
      [chars "001 AB V C 00:00:00:00 00:00:00:01 00:00:00:02 00:00:00:03",
       chars "* N"]).toOption.map (fun p => p.2.length) = some 1 := by
  constructor
  · decide
  · decide

/-- C5 (amended): when the final event-start line is followed by at least one
annotation line up to end of input, the parser flushes the in-progress event
as the final entry of the parsed event sequence: the last parsed event is the
one constructed from that line's tokens and those annotation lines.  (With no
annotation lines after it, the final event-start line is dropped — see the
counterexample.) -/
theorem c5_theorem (ls : List Str) (evline : Str) (anns : List Str) {rm : Bool}
    (hd : List Str) {evs : List EDLEvent}
    (hev : digitLed evline = true)
    (hann : anns ≠ []) (hann2 : ∀ a ∈ anns, digitLed a = false)
    (hp : parseHeaderAndEvents rm (ls ++ evline :: anns) = .ok (hd, evs)) :
    ∃ ev, mkEvent rm (tokens evline, anns) = .ok ev ∧ evs.getLast? = some ev := by
  have hbuf := bufInv_scan ls initSt bufInv_init
  rcases hscan : scan initSt ls with ⟨H, E, I, C, be, bh⟩
  rw [hscan] at hbuf
  have hstep : ∃ E2, stepLine ⟨H, E, I, C, be, bh⟩ evline =
      ⟨H, E2, tokens evline, [], true, false⟩ := by
    cases be with
    | true => exact ⟨E ++ [(I, C)], step_event_true H E I C bh hev⟩
    | false =>
      have hC : C = [] := hbuf rfl
      subst hC
      exact ⟨E, step_event_false H E I [] bh hev⟩
  obtain ⟨E2, hstep⟩ := hstep
  simp only [parseHeaderAndEvents, scan_append, hscan] at hp
  rw [show scan (⟨H, E, I, C, be, bh⟩ : PSt) (evline :: anns) =
    scan (stepLine ⟨H, E, I, C, be, bh⟩ evline) anns from rfl] at hp
  rw [hstep] at hp
  rw [scan_comments anns H E2 (tokens evline) [] false hann2] at hp
  have hfin : finishRaws ⟨H, E2, tokens evline, [] ++ anns, true, false⟩ =
      E2 ++ [(tokens evline, [] ++ anns)] := by
    simp only [finishRaws]
    rw [if_pos ⟨tokens_ne_nil hev, by simpa using hann⟩]
  rw [hfin] at hp
  cases hm : mkEvents rm (E2 ++ [(tokens evline, [] ++ anns)]) with
  | error er => rw [hm] at hp; cases hp
  | ok evs0 =>
    rw [hm] at hp
    injection hp with h3
    have hevs : evs0 = evs := congrArg Prod.snd h3
    subst hevs
    have hlast : (E2 ++ [(tokens evline, [] ++ anns)]).getLast? =
        some (tokens evline, [] ++ anns) := List.getLast?_concat _
    obtain ⟨y, hy1, hy2⟩ := forall2_getLast? (mkEvents_forall2 hm) hlast
    exact ⟨y, by simpa using hy2, hy1⟩

/-- C5 witness: a concrete document whose final event line is followed by one
annotation line; the flushed final event is the one built from that line. -/
theorem c5_witness :
    parseHeaderAndEvents false
      [chars "TITLE",
       chars "002 AB V C 00:00:00:00 00:00:00:01 00:00:00:02 00:00:00:03",
       chars "* W"] =
      .ok ([chars "TITLE"],
        [⟨chars "002", chars "AB", chars "V", chars "C", chars "00:00:00:00",
          chars "00:00:00:01", chars "00:00:00:02", chars "00:00:00:03",
          EDLMarker.mk' [] [] [], [chars "* W"]⟩]) ∧
    (∃ ev, mkEvent false
        (tokens (chars "002 AB V C 00:00:00:00 00:00:00:01 00:00:00:02 00:00:00:03"),
          [chars "* W"]) = .ok ev ∧
      ([⟨chars "002", chars "AB", chars "V", chars "C", chars "00:00:00:00",
        chars "00:00:00:01", chars "00:00:00:02", chars "00:00:00:03",
        EDLMarker.mk' [] [] [], [chars "* W"]⟩] : List EDLEvent).getLast? = some ev) :=
  ⟨by decide, c5_theorem [chars "TITLE"]
    (chars "002 AB V C 00:00:00:00 00:00:00:01 00:00:00:02 00:00:00:03")
    [chars "* W"] [chars "TITLE"] (by decide) (by decide) (by decide) (by decide)⟩

/-- C10: the malformed-event claim fails as stated.  A digit-led line with
fewer than eight tokens that is the final line of the input is silently
dropped: parsing succeeds with no events and no `MalformedEvent` error. -/
theorem c10_counterexample :
    parseHeaderAndEvents false [chars "004 AB"] = .ok ([], []) ∧
    (tokens (chars "004 AB")).length = 2 := by
  constructor
  · decide
  · decide

/-- C10 (amended): a digit-led line splitting into fewer than eight tokens
makes parsing (extraction disabled) fail with the `MalformedEvent` error
whenever any line follows it; no event sequence is produced at all.  When such
a line is the last line of the input it is silently dropped instead and no
event is appended for it (see the counterexample). -/
theorem c10_theorem (pre : List Str) (bad : Str) (post : List Str)
    (hb : digitLed bad = true) (hlen : (tokens bad).length ≠ 8) (hpost : post ≠ []) :
    parseHeaderAndEvents false (pre ++ bad :: post) = .error .malformedEvent := by
  rcases hscan : scan initSt pre with ⟨H, E, I, C, be, bh⟩
  have hstep : ∃ E2 C2, stepLine ⟨H, E, I, C, be, bh⟩ bad =
      ⟨H, E2, tokens bad, C2, true, false⟩ := by
    cases be with
    | true => exact ⟨E ++ [(I, C)], [], step_event_true H E I C bh hb⟩
    | false => exact ⟨E, C, step_event_false H E I C bh hb⟩
  obtain ⟨E2, C2, hstep⟩ := hstep
  simp only [parseHeaderAndEvents, scan_append, hscan]
  rw [show scan (⟨H, E, I, C, be, bh⟩ : PSt) (bad :: post) =
    scan (stepLine ⟨H, E, I, C, be, bh⟩ bad) post from rfl]
  rw [hstep]
  obtain ⟨com, hcom⟩ :=
    pending_flushed post H E2 (tokens bad) C2 false hpost (tokens_ne_nil hb)
  rw [mkEvents_false_err _ ⟨(tokens bad, com), hcom, mkEvent_false_short hlen⟩]

/-- C10 witness: a malformed digit-led line followed by an annotation line
makes the whole parse fail with `MalformedEvent`. -/
theorem c10_witness :
    digitLed (chars "004 AB") = true ∧ (tokens (chars "004 AB")).length ≠ 8 ∧
    parseHeaderAndEvents false ([] ++ chars "004 AB" :: [chars "* N"]) =
      .error .malformedEvent :=
  ⟨by decide, by decide,
    c10_theorem [] (chars "004 AB") [chars "* N"] (by decide) (by decide) (by decide)⟩

/-! ## Lemmas: offset calls touch only the working state -/

theorem offset_forward_fst (r : EDLReader) (offset : Str) (fr osrc : Bool) :
    ∃ es b, (r.offset_forward offset fr osrc).1 =
      { r with current_events := es, _isoffset := b } := by
  unfold EDLReader.offset_forward
  split
  · exact ⟨r.current_events, r._isoffset, rfl⟩
  · split
    · rename_i es er h
      exact ⟨es, r._isoffset, rfl⟩
    · rename_i es h
      exact ⟨es, true, rfl⟩

theorem offset_backward_fst (r : EDLReader) (offset : Str) (fr osrc : Bool) :
    ∃ es b, (r.offset_backward offset fr osrc).1 =
      { r with current_events := es, _isoffset := b } := by
  unfold EDLReader.offset_backward
  split
  · exact ⟨r.current_events, r._isoffset, rfl⟩
  · split
    · rename_i es er h
      exact ⟨es, r._isoffset, rfl⟩
    · rename_i es h
      exact ⟨es, true, rfl⟩

theorem applyOp_keeps (r : EDLReader) (op : DocOp) :
    (applyOp r op).original_events = r.original_events ∧
    (applyOp r op).header = r.header := by
  cases op with
  | forward offset f s =>
    obtain ⟨es, b, h⟩ := offset_forward_fst r offset f s
    show (r.offset_forward offset f s).1.original_events = _ ∧
      (r.offset_forward offset f s).1.header = _
    rw [h]
    exact ⟨rfl, rfl⟩
  | backward offset f s =>
    obtain ⟨es, b, h⟩ := offset_backward_fst r offset f s
    show (r.offset_backward offset f s).1.original_events = _ ∧
      (r.offset_backward offset f s).1.header = _
    rw [h]
    exact ⟨rfl, rfl⟩
  | reset => exact ⟨rfl, rfl⟩
  | setFps fps => exact ⟨rfl, rfl⟩

/-- C4: every operation of the document API leaves `original_events` and
`header` unchanged: after any sequence of transforming operations
(`offset_forward`, `offset_backward`, `reset`, `set_fps` — including the state
a mid-loop error leaves behind), the originals and the header equal the
snapshot the reader started from.  The reading operations (`timecodes`,
`write`, metadata derivation) take the reader without returning one, so in
this value-semantics model they cannot mutate it; `current_events` is always a
value copy, so no mutable substructure is shared. -/
theorem c4_theorem : ∀ (ops : List DocOp) (r : EDLReader),
    (applyOps r ops).original_events = r.original_events ∧
    (applyOps r ops).header = r.header := by
  intro ops
  induction ops with
  | nil => intro r; exact ⟨rfl, rfl⟩
  | cons op rest ih =>
    intro r
    have h := applyOp_keeps r op
    rw [show applyOps r (op :: rest) = applyOps (applyOp r op) rest from rfl]
    exact ⟨(ih _).1.trans h.1, (ih _).2.trans h.2⟩

/-- C3: after any sequence of document operations, `reset()` rebuilds
`current_events` as a copy of `original_events` (they are equal by value), and
`reset()` twice in a row produces exactly the state of calling it once. -/
theorem c3_theorem : ∀ (r : EDLReader) (ops : List DocOp),
    ((applyOps r ops).reset).current_events = (applyOps r ops).original_events ∧
    ((applyOps r ops).reset).reset = (applyOps r ops).reset := by
  intro r ops
  exact ⟨rfl, rfl⟩

/-- C9: the frame-rate-unset claim fails as stated for metadata derivation.
On a document constructed without a frame rate whose event carries a
recognized marker color, `Metadata.set` raises `FrameRateUnset` but only after
assigning the metadata record's `name` from the file name: the returned
(partially mutated) metadata differs from the default record. -/
theorem c9_counterexample :
    (EDLReader.init (chars "test.edl")
        [chars "001 AB V C 01:00:00:00 01:00:00:10 01:00:00:00 01:00:00:10",
         chars "X |M:ResolveColorCyan|D:T|F:24"] none true false).map
      (fun r => ((Metadata.set {} r).2, (Metadata.set {} r).1.name,
        (Metadata.set {} r).1 == ({} : Metadata))) =
    .ok (some Err.frameRateUnset, chars "test.edl", false) := by
  decide

/-- C9 (amended): on a document without a frame rate, `offset_forward` and
`offset_backward` with a timecode-string offset raise `FrameRateUnset` leaving
the document unchanged; with a parsable frames-unit offset both raise
`FrameRateUnset` leaving the document unchanged when at least one event
exists, and both complete without error (setting only the offset flag) when
`current_events` is empty; metadata derivation whose first event carries a
recognized color raises `FrameRateUnset`, but only after the metadata name has
been assigned from the file name. -/
theorem c9_theorem :
    (∀ (r : EDLReader) (offset : Str) (osrc : Bool), r._fps = none →
      r.offset_forward offset false osrc = (r, some Err.frameRateUnset) ∧
      r.offset_backward offset false osrc = (r, some Err.frameRateUnset)) ∧
    (∀ (r : EDLReader) (offset : Str) (osrc : Bool) (x : Nat) (e : EDLEvent)
        (es : List EDLEvent), r._fps = none → parseNat offset = some x →
      r.current_events = e :: es →
      r.offset_forward offset true osrc = (r, some Err.frameRateUnset) ∧
      r.offset_backward offset true osrc = (r, some Err.frameRateUnset)) ∧
    (∀ (r : EDLReader) (offset : Str) (osrc : Bool) (x : Nat), r._fps = none →
      parseNat offset = some x → r.current_events = [] →
      r.offset_forward offset true osrc = ({ r with _isoffset := true }, none) ∧
      r.offset_backward offset true osrc = ({ r with _isoffset := true }, none)) ∧
    (∀ (md : Metadata) (r : EDLReader) (e : EDLEvent) (es : List EDLEvent) (k : SegKey),
      r._fps = none → r.current_events = e :: es → colorsGet e.marker.color = some k →
      Metadata.set md r = ({ md with name := r.edl_name }, some Err.frameRateUnset)) := by
  have hofferr : ∀ (r : EDLReader) (tc : Str) (off : Nat) (sub : Bool), r._fps = none →
      r._offset tc off sub = .error Err.frameRateUnset := by
    intro r tc off sub h
    simp [EDLReader._offset, EDLReader.fps, h]
  have hoev : ∀ (r : EDLReader) (off : Nat) (sub osrc : Bool) (e : EDLEvent), r._fps = none →
      r.offsetEvent off sub osrc e = (e, some Err.frameRateUnset) := by
    intro r off sub osrc e h
    cases osrc with
    | true => simp [EDLReader.offsetEvent, hofferr r _ off sub h]
    | false => simp [EDLReader.offsetEvent, EDLReader.offsetRecordFields, hofferr r _ off sub h]
  refine ⟨?_, ?_, ?_, ?_⟩
  · intro r offset osrc h
    constructor
    · simp [EDLReader.offset_forward, EDLReader.offsetAmount, EDLReader.fps, h]
    · simp [EDLReader.offset_backward, EDLReader.offsetAmount, EDLReader.fps, h]
  · intro r offset osrc x e es h hx hce
    have key : ∀ sub : Bool, r.offsetEvents x sub osrc (e :: es) =
        (e :: es, some Err.frameRateUnset) := by
      intro sub
      simp [EDLReader.offsetEvents, hoev r x sub osrc e h]
    constructor
    · simp only [EDLReader.offset_forward, EDLReader.offsetAmount, eq_self_iff_true,
        if_true, hx, hce, key false]
      rw [← hce]
    · simp only [EDLReader.offset_backward, EDLReader.offsetAmount, eq_self_iff_true,
        if_true, hx, hce, key true]
      rw [← hce]
  · intro r offset osrc x h hx hce
    constructor
    · simp only [EDLReader.offset_forward, EDLReader.offsetAmount, eq_self_iff_true,
        if_true, hx, hce, EDLReader.offsetEvents]
    · simp only [EDLReader.offset_backward, EDLReader.offsetAmount, eq_self_iff_true,
        if_true, hx, hce, EDLReader.offsetEvents]
  · intro md r e es k h hce hk
    unfold Metadata.set
    rw [hce]
    simp [Metadata.setLoop, hk, h]

/-- C9 witness: a concrete frame-rate-unset reader with one
recognized-color event on which the amended metadata clause applies. -/
theorem c9_witness :
    Metadata.set {} (⟨chars "t.edl", false, true, [], [],
      [⟨chars "001", chars "AB", chars "V", chars "C", chars "01:00:00:00",
        chars "01:00:00:10", chars "01:00:00:00", chars "01:00:00:10",
        ⟨chars "ResolveColorCyan", chars "T", chars "24"⟩, []⟩],
      [⟨chars "001", chars "AB", chars "V", chars "C", chars "01:00:00:00",
        chars "01:00:00:10", chars "01:00:00:00", chars "01:00:00:10",
        ⟨chars "ResolveColorCyan", chars "T", chars "24"⟩, []⟩],
      none, false⟩ : EDLReader) =
    ({ ({} : Metadata) with name := chars "t.edl" }, some Err.frameRateUnset) :=
  c9_theorem.2.2.2 {}
    (⟨chars "t.edl", false, true, [], [],
      [⟨chars "001", chars "AB", chars "V", chars "C", chars "01:00:00:00",
        chars "01:00:00:10", chars "01:00:00:00", chars "01:00:00:10",
        ⟨chars "ResolveColorCyan", chars "T", chars "24"⟩, []⟩],
      [⟨chars "001", chars "AB", chars "V", chars "C", chars "01:00:00:00",
        chars "01:00:00:10", chars "01:00:00:00", chars "01:00:00:10",
        ⟨chars "ResolveColorCyan", chars "T", chars "24"⟩, []⟩],
      none, false⟩ : EDLReader)
    ⟨chars "001", chars "AB", chars "V", chars "C", chars "01:00:00:00",
      chars "01:00:00:10", chars "01:00:00:00", chars "01:00:00:10",
      ⟨chars "ResolveColorCyan", chars "T", chars "24"⟩, []⟩
    [] SegKey.maintitle rfl rfl (by decide)

/-! ## Lemmas: the metadata derivation loop -/

theorem setLoop_append (pre : List EDLEvent) : ∀ (md : Metadata) (r : EDLReader)
    (rest : List EDLEvent),
    Metadata.setLoop md r (pre ++ rest) =
      match Metadata.setLoop md r pre with
      | (md2, none) => Metadata.setLoop md2 r rest
      | (md2, some er) => (md2, some er) := by
  induction pre with
  | nil => intro md r rest; rfl
  | cons e es ih =>
    intro md r rest
    show Metadata.setLoop md r (e :: (es ++ rest)) = _
    rcases hc : colorsGet e.marker.color with _ | attr
    · simp [Metadata.setLoop, hc]
    · rcases hf : r._fps with _ | fps
      · simp [Metadata.setLoop, hc, hf]
      · rcases ht : tclib3.tc_to_frames (dfAdjust r.df e.record_in) fps with er | n
        · simp [Metadata.setLoop, hc, hf, ht]
        · rcases hdu : parseNat e.marker.duration with _ | d
          · simp [Metadata.setLoop, hc, hf, ht, hdu]
          · simp only [Metadata.setLoop, hc, hf, ht, hdu]
            exact ih _ r rest

/-- C6: the unrecognized-marker-color claim fails as stated.  Metadata
derivation over a document whose only event carries the unrecognized color
`RED` does not skip the event: it fails with the dictionary lookup error
(`KeyError`) instead of completing normally. -/
theorem c6_counterexample :
    (EDLReader.init (chars "c.edl")
        [chars "001 AB V C 01:00:00:00 01:00:00:10 01:00:00:00 01:00:00:10",
         chars "X |M:RED|D:T|F:24"] (some 24) true false).map
      (fun r => (Metadata.set {} r).2) = .ok (some Err.keyError) := by
  decide

/-- C6 (amended): during metadata derivation, the first event whose marker
color is not one of the six recognized table values aborts the derivation
with a `KeyError` at that event: the events before it have been applied (and
the metadata name set), no segment field is assigned for the unrecognized
event, and the events after it are never processed.  The event's own marker is
untouched (`Metadata.set` never writes to the reader). -/
theorem c6_theorem (md : Metadata) (r : EDLReader) (pre post : List EDLEvent)
    (bad : EDLEvent)
    (hce : r.current_events = pre ++ bad :: post)
    (hbad : colorsGet bad.marker.color = none)
    (hpre : (Metadata.setLoop { md with name := r.edl_name } r pre).2 = none) :
    Metadata.set md r =
      ((Metadata.setLoop { md with name := r.edl_name } r pre).1, some Err.keyError) := by
  unfold Metadata.set
  rw [hce, setLoop_append]
  rcases hsl : Metadata.setLoop { md with name := r.edl_name } r pre with ⟨md2, er⟩
  rw [hsl] at hpre
  simp only at hpre
  subst hpre
  show Metadata.setLoop md2 r (bad :: post) = (md2, some Err.keyError)
  simp only [Metadata.setLoop, hbad]

/-- C6 witness: a reader whose single event has the unrecognized color `X`
drives `Metadata.set` into the `KeyError` outcome with only the name set. -/
theorem c6_witness :
    Metadata.set {} (⟨chars "c.edl", false, true, [], [],
      [⟨chars "001", chars "AB", chars "V", chars "C", chars "01:00:00:00",
        chars "01:00:00:10", chars "01:00:00:00", chars "01:00:00:10",
        ⟨chars "X", chars "T", chars "24"⟩, []⟩],
      [⟨chars "001", chars "AB", chars "V", chars "C", chars "01:00:00:00",
        chars "01:00:00:10", chars "01:00:00:00", chars "01:00:00:10",
        ⟨chars "X", chars "T", chars "24"⟩, []⟩],
      some 24, false⟩ : EDLReader) =
    ((Metadata.setLoop { ({} : Metadata) with name := chars "c.edl" }
        (⟨chars "c.edl", false, true, [], [],
          [⟨chars "001", chars "AB", chars "V", chars "C", chars "01:00:00:00",
            chars "01:00:00:10", chars "01:00:00:00", chars "01:00:00:10",
            ⟨chars "X", chars "T", chars "24"⟩, []⟩],
          [⟨chars "001", chars "AB", chars "V", chars "C", chars "01:00:00:00",
            chars "01:00:00:10", chars "01:00:00:00", chars "01:00:00:10",
            ⟨chars "X", chars "T", chars "24"⟩, []⟩],
          some 24, false⟩ : EDLReader) []).1, some Err.keyError) :=
  c6_theorem {} (⟨chars "c.edl", false, true, [], [],
      [⟨chars "001", chars "AB", chars "V", chars "C", chars "01:00:00:00",
        chars "01:00:00:10", chars "01:00:00:00", chars "01:00:00:10",
        ⟨chars "X", chars "T", chars "24"⟩, []⟩],
      [⟨chars "001", chars "AB", chars "V", chars "C", chars "01:00:00:00",
        chars "01:00:00:10", chars "01:00:00:00", chars "01:00:00:10",
        ⟨chars "X", chars "T", chars "24"⟩, []⟩],
      some 24, false⟩ : EDLReader) [] []
    ⟨chars "001", chars "AB", chars "V", chars "C", chars "01:00:00:00",
      chars "01:00:00:10", chars "01:00:00:00", chars "01:00:00:10",
      ⟨chars "X", chars "T", chars "24"⟩, []⟩
    rfl (by decide) rfl

/-- C7: for an event whose marker color matches the six-entry table, metadata
derivation stores under the matched segment the pair `(record_in, end)` where
`end = frames_to_tc(tc_to_frames(adjusted record_in, fps) + duration - 1, fps, df)`;
the drop-frame adjustment (`dfAdjust`, forcing index 8 to a semicolon) is
applied only when the drop-frame flag is set and only to the value passed to
conversion, while the stored pair keeps the raw `record_in`. -/
theorem c7_theorem (md : Metadata) (r : EDLReader) (e : EDLEvent) (fps : Nat) (k : SegKey)
    (f d : Nat)
    (hce : r.current_events = [e]) (hfps : r._fps = some fps)
    (hk : colorsGet e.marker.color = some k)
    (hf : tclib3.tc_to_frames (dfAdjust r.df e.record_in) fps = .ok f)
    (hdu : parseNat e.marker.duration = some d) :
    Metadata.set md r =
      (setSeg { md with name := r.edl_name } k
        (e.record_in, tclib3.frames_to_tc ((f : Int) + (d : Int) - 1) fps r.df), none) := by
  unfold Metadata.set
  rw [hce]
  simp [Metadata.setLoop, hk, hfps, hf, hdu]

/-- C7 witness: the spec's example — `record_in = "01:00:00:00"`, fps 24,
non-drop-frame, duration `"24"`, color mapped to the main-title segment —
yields the pair `("01:00:00:00", "01:00:00:23")`. -/
theorem c7_witness :
    Metadata.set {} (⟨chars "x.edl", false, true, [], [],
      [⟨chars "001", chars "AB", chars "V", chars "C", chars "01:00:00:00",
        chars "01:00:00:10", chars "01:00:00:00", chars "01:00:00:10",
        ⟨chars "ResolveColorCyan", chars "T", chars "24"⟩, []⟩],
      [⟨chars "001", chars "AB", chars "V", chars "C", chars "01:00:00:00",
        chars "01:00:00:10", chars "01:00:00:00", chars "01:00:00:10",
        ⟨chars "ResolveColorCyan", chars "T", chars "24"⟩, []⟩],
      some 24, false⟩ : EDLReader) =
    ({ ({} : Metadata) with
        name := chars "x.edl"
        maintitle := (chars "01:00:00:00", chars "01:00:00:23") }, none) :=
  (c7_theorem {} (⟨chars "x.edl", false, true, [], [],
      [⟨chars "001", chars "AB", chars "V", chars "C", chars "01:00:00:00",
        chars "01:00:00:10", chars "01:00:00:00", chars "01:00:00:10",
        ⟨chars "ResolveColorCyan", chars "T", chars "24"⟩, []⟩],
      [⟨chars "001", chars "AB", chars "V", chars "C", chars "01:00:00:00",
        chars "01:00:00:10", chars "01:00:00:00", chars "01:00:00:10",
        ⟨chars "ResolveColorCyan", chars "T", chars "24"⟩, []⟩],
      some 24, false⟩ : EDLReader)
    ⟨chars "001", chars "AB", chars "V", chars "C", chars "01:00:00:00",
      chars "01:00:00:10", chars "01:00:00:00", chars "01:00:00:10",
      ⟨chars "ResolveColorCyan", chars "T", chars "24"⟩, []⟩
    24 SegKey.maintitle 86400 24 rfl rfl (by decide) (by decide) (by decide)).trans
    (by decide)

/-! ## Lemmas: marker extraction -/

theorem contains_false {l : Str} {c : Char} (h : ∀ x ∈ l, x ≠ c) : l.contains c = false := by
  induction l with
  | nil => rfl
  | cons x xs ih =>
    rw [List.contains_cons]
    have hx : (c == x) = false := by
      have := h x (by simp)
      simp [Ne.symm this]
    rw [hx]
    simp only [Bool.false_or]
    exact ih (fun y hy => h y (by simp [hy]))

theorem joinNL_nopipe {ls : List Str} {c : Char} (hc : c ≠ '\n')
    (h : ∀ l ∈ ls, ∀ x ∈ l, x ≠ c) : ∀ x ∈ joinNL ls, x ≠ c := by
  induction ls with
  | nil => intro x hx; simp [joinNL] at hx
  | cons l rest ih =>
    intro x hx
    cases rest with
    | nil => exact h l (by simp) x hx
    | cons l2 rest2 =>
      rw [show joinNL (l :: l2 :: rest2) = l ++ '\n' :: joinNL (l2 :: rest2) from rfl] at hx
      rcases List.mem_append.mp hx with h1 | h1
      · exact h l (by simp) x h1
      · rcases List.mem_cons.mp h1 with h2 | h2
        · subst h2; exact fun he => hc he.symm
        · exact ih (fun l3 hl3 => h l3 (by simp [hl3])) x h2

theorem joinNL_concat {ls : List Str} (L : Str) (h : ls ≠ []) :
    joinNL (ls ++ [L]) = joinNL ls ++ '\n' :: L := by
  induction ls with
  | nil => exact absurd rfl h
  | cons l rest ih =>
    cases rest with
    | nil => rfl
    | cons l2 rest2 =>
      show joinNL (l :: ((l2 :: rest2) ++ [L])) = _
      rw [show joinNL (l :: ((l2 :: rest2) ++ [L])) =
        l ++ '\n' :: joinNL ((l2 :: rest2) ++ [L]) from rfl]
      rw [ih (by simp)]
      rw [show joinNL (l :: l2 :: rest2) = l ++ '\n' :: joinNL (l2 :: rest2) from rfl]
      simp

theorem split_marker_line (Y : Str) (hY : ∀ x ∈ Y, x ≠ '|') :
    splitBy (· == '|') (Y ++ chars "SOME TEXT |M:RED|D:Title|F:10") =
    [Y ++ chars "SOME TEXT ", chars "M:RED", chars "D:Title", chars "F:10"] := by
  have hL : chars "SOME TEXT |M:RED|D:Title|F:10" =
      chars "SOME TEXT " ++ '|' :: (chars "M:RED" ++ '|' ::
        (chars "D:Title" ++ '|' :: chars "F:10")) := by decide
  rw [hL]
  rw [show Y ++ (chars "SOME TEXT " ++ '|' :: (chars "M:RED" ++ '|' ::
      (chars "D:Title" ++ '|' :: chars "F:10"))) =
    (Y ++ chars "SOME TEXT ") ++ '|' :: (chars "M:RED" ++ '|' ::
      (chars "D:Title" ++ '|' :: chars "F:10")) from by simp]
  have h1 : ∀ x ∈ Y ++ chars "SOME TEXT ", ((· == '|') x) = false := by
    intro x hx
    rcases List.mem_append.mp hx with h2 | h2
    · simpa using hY x h2
    · clear hx
      revert h2
      revert x
      decide
  rw [splitBy_word_sep (· == '|') (Y ++ chars "SOME TEXT ") '|' _ h1 (by decide)]
  rw [splitBy_word_sep (· == '|') (chars "M:RED") '|' _ (by decide) (by decide)]
  rw [splitBy_word_sep (· == '|') (chars "D:Title") '|' _ (by decide) (by decide)]
  rw [splitBy_nosep (· == '|') (chars "F:10") (by decide)]

/-- C8: the marker-stripping claim fails as stated when the marker line is not
the event's final annotation line: `"\n".join` glues the following lines onto
the duration field.  Here the duration becomes `"10\nAFTER"` instead of
`"10"` (the notes do keep `"SOME TEXT"` in place of the marker line). -/
theorem c8_counterexample :
    (parseHeaderAndEvents true
      [chars "001 AB V C 00:00:00:00 00:00:00:01 00:00:00:02 00:00:00:03",
       chars "SOME TEXT |M:RED|D:Title|F:10",
       chars "AFTER"]).map
      (fun p => p.2.map (fun e => (e.marker.duration, e.notes))) =
    .ok [(chars "10\nAFTER", [chars "SOME TEXT", chars "AFTER"])] ∧
    chars "10\nAFTER" ≠ chars "10" := by
  constructor
  · decide
  · decide

/-- C8 (amended): with marker extraction enabled, an event whose annotation
lines are any delimiter-free lines followed by the final line
`"SOME TEXT |M:RED|D:Title|F:10"` is constructed with
`Marker(color="RED", name="Title", duration="10")` — each field with its
two-character tag dropped and surrounding whitespace stripped — and its notes
keep `"SOME TEXT"` in place of the marker line (earlier lines unchanged).
When further annotation lines follow the marker line, they are absorbed into
the duration (see the counterexample). -/
theorem c8_theorem (a b c d e2 f g h8 : Str) (pre : List Str)
    (hp : ∀ l ∈ pre, ∀ x ∈ l, x ≠ '|') :
    mkEvent true ([a, b, c, d, e2, f, g, h8],
      pre ++ [chars "SOME TEXT |M:RED|D:Title|F:10"]) =
    .ok ⟨a, b, c, d, e2, f, g, h8, ⟨chars "RED", chars "Title", chars "10"⟩,
      pre ++ [chars "SOME TEXT"]⟩ := by
  obtain ⟨Y, hJ, hY⟩ : ∃ Y, joinNL (pre ++ [chars "SOME TEXT |M:RED|D:Title|F:10"]) =
      Y ++ chars "SOME TEXT |M:RED|D:Title|F:10" ∧ ∀ x ∈ Y, x ≠ '|' := by
    cases hpre : pre with
    | nil => exact ⟨[], rfl, by intro x hx; simp at hx⟩
    | cons p ps =>
      refine ⟨joinNL (p :: ps) ++ ['\n'], ?_, ?_⟩
      · rw [← hpre, joinNL_concat _ (by simp [hpre])]
        simp [hpre]
      · intro x hx
        rcases List.mem_append.mp hx with h1 | h1
        · exact joinNL_nopipe (by decide) (fun l hl => hp l (by simp [hpre, hl])) x h1
        · simp at h1
          subst h1
          decide
  have hs : (splitBy (· == '|')
      (joinNL (pre ++ [chars "SOME TEXT |M:RED|D:Title|F:10"]))).tail =
      [chars "M:RED", chars "D:Title", chars "F:10"] := by
    rw [hJ, split_marker_line Y hY]
    rfl
  have hr : removeMarker (pre ++ [chars "SOME TEXT |M:RED|D:Title|F:10"]) =
      pre ++ [chars "SOME TEXT"] := by
    unfold removeMarker
    rw [List.map_append]
    have h2 : pre.map (fun line =>
        if line.contains '|' then pyStrip ((splitBy (· == '|') line).headD []) else line) =
        pre.map id := by
      refine List.map_congr_left ?_
      intro l hl
      rw [contains_false (hp l hl)]
      rfl
    rw [h2, List.map_id]
    have h3 : [chars "SOME TEXT |M:RED|D:Title|F:10"].map (fun line =>
        if line.contains '|' then pyStrip ((splitBy (· == '|') line).headD []) else line) =
        [chars "SOME TEXT"] := by decide
    rw [h3]
  have hmk : EDLMarker.mk' (chars "M:RED") (chars "D:Title") (chars "F:10") =
      ⟨chars "RED", chars "Title", chars "10"⟩ := by decide
  simp only [mkEvent, if_true, hs, hr, hmk]

/-- C8 witness: an event with one ordinary annotation line followed by the
marker line gets the stripped marker fields and keeps the free text. -/
theorem c8_witness :
    mkEvent true ([chars "004", chars "AB", chars "V", chars "C",
      chars "00:00:00:00", chars "00:00:00:01", chars "00:00:00:02", chars "00:00:00:03"],
      [chars "* X"] ++ [chars "SOME TEXT |M:RED|D:Title|F:10"]) =
    .ok ⟨chars "004", chars "AB", chars "V", chars "C", chars "00:00:00:00",
      chars "00:00:00:01", chars "00:00:00:02", chars "00:00:00:03",
      ⟨chars "RED", chars "Title", chars "10"⟩,
      [chars "* X"] ++ [chars "SOME TEXT"]⟩ :=
  c8_theorem (chars "004") (chars "AB") (chars "V") (chars "C")
    (chars "00:00:00:00") (chars "00:00:00:01") (chars "00:00:00:02") (chars "00:00:00:03")
    [chars "* X"] (by decide)

/-! ## Lemmas: decimal rendering and the timecode round-trip -/

theorem digitChar_facts : ∀ n, n < 10 →
    (digitChar n).isDigit = true ∧ (digitChar n).toNat - 48 = n := by decide

theorem digitsVal_append_single (s : Str) (c : Char) :
    digitsVal (s ++ [c]) = digitsVal s * 10 + (c.toNat - 48) := by
  simp [digitsVal, List.foldl_append]

theorem natToCharsAux_spec : ∀ (fuel n : Nat), n < 10 ^ fuel → 0 < fuel →
    natToCharsAux fuel n ≠ [] ∧ (∀ c ∈ natToCharsAux fuel n, c.isDigit = true) ∧
    digitsVal (natToCharsAux fuel n) = n := by
  intro fuel
  induction fuel with
  | zero => intro n _ h0; exact absurd h0 (by omega)
  | succ f ih =>
    intro n hn _
    by_cases h10 : n < 10
    · rw [show natToCharsAux (f + 1) n = [digitChar n] from by simp [natToCharsAux, h10]]
      refine ⟨by simp, ?_, ?_⟩
      · intro c hc
        simp at hc
        subst hc
        exact (digitChar_facts n h10).1
      · show digitsVal ([] ++ [digitChar n]) = n
        rw [digitsVal_append_single]
        have := (digitChar_facts n h10).2
        simp [digitsVal]
        omega
    · have hstep : natToCharsAux (f + 1) n =
          natToCharsAux f (n / 10) ++ [digitChar (n % 10)] := by
        simp [natToCharsAux, h10]
      have hf0 : 0 < f := by
        rcases Nat.eq_zero_or_pos f with h | h
        · subst h; simp at hn; omega
        · exact h
      have hdiv : n / 10 < 10 ^ f := by
        rw [Nat.div_lt_iff_lt_mul (by norm_num)]
        calc n < 10 ^ (f + 1) := hn
        _ = 10 ^ f * 10 := by rw [Nat.pow_succ]
      obtain ⟨h1, h2, h3⟩ := ih (n / 10) hdiv hf0
      rw [hstep]
      refine ⟨by simp, ?_, ?_⟩
      · intro c hc
        rcases List.mem_append.mp hc with hcc | hcc
        · exact h2 c hcc
        · simp at hcc
          subst hcc
          exact (digitChar_facts (n % 10) (by omega)).1
      · rw [digitsVal_append_single, h3, (digitChar_facts (n % 10) (by omega)).2]
        omega

theorem natToChars_spec (n : Nat) : natToChars n ≠ [] ∧
    (∀ c ∈ natToChars n, c.isDigit = true) ∧ digitsVal (natToChars n) = n :=
  natToCharsAux_spec (n + 1) n
    (lt_of_lt_of_le (Nat.lt_pow_self (by norm_num) n)
      (Nat.pow_le_pow_right (by norm_num) (Nat.le_succ n))) (by omega)

theorem pad2_digits (n : Nat) : ∀ c ∈ tclib3.pad2 n, c.isDigit = true := by
  intro c hc
  unfold tclib3.pad2 at hc
  split at hc
  · rcases List.mem_cons.mp hc with h | h
    · subst h; decide
    · exact (natToChars_spec n).2.1 c h
  · exact (natToChars_spec n).2.1 c hc

theorem parseNat_pad2 (n : Nat) : parseNat (tclib3.pad2 n) = some n := by
  have hne : tclib3.pad2 n ≠ [] := by
    unfold tclib3.pad2
    split
    · simp
    · exact (natToChars_spec n).1
  have hdig : (tclib3.pad2 n).all Char.isDigit = true := by
    rw [List.all_eq_true]
    exact pad2_digits n
  have hval : digitsVal (tclib3.pad2 n) = n := by
    unfold tclib3.pad2
    split
    · have hz : (0 * 10 + ('0'.toNat - 48)) = 0 := by decide
      show List.foldl _ 0 ('0' :: natToChars n) = n
      rw [List.foldl_cons, hz]
      exact (natToChars_spec n).2.2
    · exact (natToChars_spec n).2.2
  unfold parseNat
  rw [if_pos ⟨hne, hdig⟩, hval]

theorem digit_not_sep {c : Char} (h : c.isDigit = true) : tclib3.isTCSep c = false := by
  by_cases hc : c = ':'
  · subst hc; exact absurd h (by decide)
  · by_cases hs : c = ';'
    · subst hs; exact absurd h (by decide)
    · simp [tclib3.isTCSep, hc, hs]

theorem pad2_not_sep (n : Nat) : ∀ c ∈ tclib3.pad2 n, tclib3.isTCSep c = false :=
  fun c hc => digit_not_sep (pad2_digits n c hc)

theorem tc_round (m fps : Nat) (df : Bool) :
    tclib3.tc_to_frames (tclib3.frames_to_tc ((m : Nat) : Int) fps df) fps = .ok m := by
  simp only [tclib3.frames_to_tc, Int.toNat_natCast]
  unfold tclib3.tc_to_frames
  simp only [List.append_assoc, List.cons_append]
  rw [splitBy_word_sep tclib3.isTCSep (tclib3.pad2 (m / fps / 60 / 60)) ':' _
    (pad2_not_sep _) (by decide)]
  rw [splitBy_word_sep tclib3.isTCSep (tclib3.pad2 (m / fps / 60 % 60)) ':' _
    (pad2_not_sep _) (by decide)]
  rw [splitBy_word_sep tclib3.isTCSep (tclib3.pad2 (m / fps % 60))
    (if df then ';' else ':') _ (pad2_not_sep _) (by cases df <;> rfl)]
  rw [splitBy_nosep tclib3.isTCSep (tclib3.pad2 (m % fps)) (pad2_not_sep _)]
  simp only [List.map_cons, List.map_nil, parseNat_pad2]
  have e1 : m / fps / 60 / 60 * 60 + m / fps / 60 % 60 = m / fps / 60 := by omega
  have e2 : m / fps / 60 * 60 + m / fps % 60 = m / fps := by omega
  rw [e1, e2, Nat.mul_comm]
  rw [Nat.div_add_mod m fps]

theorem canonical_spec {fps : Nat} {df : Bool} {tc : Str} (h : canonicalTC fps df tc = true) :
    ∃ n, tclib3.tc_to_frames tc fps = .ok n ∧ tclib3.frames_to_tc ((n : Nat) : Int) fps df = tc := by
  unfold canonicalTC at h
  cases ht : tclib3.tc_to_frames tc fps with
  | error e => rw [ht] at h; cases h
  | ok n =>
    rw [ht] at h
    exact ⟨n, rfl, by simpa using h⟩

/-! ## Lemmas: the offset transform round-trip -/

theorem offset_forward_of_ok (r : EDLReader) {fps n : Nat} (off : Nat) {tc : Str}
    (hf : r._fps = some fps) (ht : tclib3.tc_to_frames tc fps = .ok n) :
    r._offset tc off false = .ok (tclib3.frames_to_tc ((n : Int) + (off : Int)) fps r.df) := by
  simp [EDLReader._offset, EDLReader.fps, hf, ht]

theorem offset_round {r : EDLReader} {fps : Nat} (off : Nat) {tc : Str}
    (hf : r._fps = some fps) (hc : canonicalTC fps r.df tc = true) :
    ∃ tc2, r._offset tc off false = .ok tc2 ∧ r._offset tc2 off true = .ok tc := by
  obtain ⟨n, ht, hback⟩ := canonical_spec hc
  refine ⟨tclib3.frames_to_tc ((n : Int) + (off : Int)) fps r.df,
    offset_forward_of_ok r off hf ht, ?_⟩
  have hcast : ((n : Int) + (off : Int)) = (((n + off : Nat) : Nat) : Int) := by push_cast; ring
  have ht2 : tclib3.tc_to_frames (tclib3.frames_to_tc ((n : Int) + (off : Int)) fps r.df) fps =
      .ok (n + off) := by
    rw [hcast]
    exact tc_round (n + off) fps r.df
  simp only [EDLReader._offset, EDLReader.fps, hf, ht2]
  have h1 : ((n + off : Nat) : Int) - (off : Int) = (n : Int) := by push_cast; ring
  have h2 : ¬ ((n : Int) < 0) := by omega
  simp only [if_true, h1, if_neg h2]
  rw [hback]

theorem offset_congr {r r2 : EDLReader} (h1 : r2._fps = r._fps) (h2 : r2.df = r.df)
    (tc : Str) (off : Nat) (sub : Bool) : r2._offset tc off sub = r._offset tc off sub := by
  simp [EDLReader._offset, EDLReader.fps, h1, h2]

theorem offsetAmount_congr {r r2 : EDLReader} (h1 : r2._fps = r._fps)
    (offset : Str) (frames : Bool) : r2.offsetAmount offset frames = r.offsetAmount offset frames := by
  simp [EDLReader.offsetAmount, EDLReader.fps, h1]

theorem offsetEvent_round (r r2 : EDLReader) {fps : Nat} (off : Nat) (osrc : Bool)
    (e : EDLEvent)
    (hf : r._fps = some fps) (hf2 : r2._fps = r._fps) (hdf : r2.df = r.df)
    (hri : canonicalTC fps r.df e.record_in = true)
    (hro : canonicalTC fps r.df e.record_out = true)
    (hsi : osrc = true → canonicalTC fps r.df e.source_in = true)
    (hso : osrc = true → canonicalTC fps r.df e.source_out = true) :
    ∃ e2, r.offsetEvent off false osrc e = (e2, none) ∧
      r2.offsetEvent off true osrc e2 = (e, none) := by
  obtain ⟨en, rl, ch, tr, si, so, ri, ro, mk, nts⟩ := e
  simp only at hri hro hsi hso
  obtain ⟨ri2, hri1, hri2⟩ := offset_round off hf hri
  obtain ⟨ro2, hro1, hro2⟩ := offset_round off hf hro
  cases osrc with
  | false =>
    refine ⟨⟨en, rl, ch, tr, si, so, ri2, ro2, mk, nts⟩, ?_, ?_⟩
    · simp only [EDLReader.offsetEvent, EDLReader.offsetRecordFields]
      simp [hri1, hro1]
    · simp only [EDLReader.offsetEvent, EDLReader.offsetRecordFields,
        offset_congr hf2 hdf]
      simp [hri2, hro2]
  | true =>
    obtain ⟨si2, hsi1, hsi2⟩ := offset_round off hf (hsi rfl)
    obtain ⟨so2, hso1, hso2⟩ := offset_round off hf (hso rfl)
    refine ⟨⟨en, rl, ch, tr, si2, so2, ri2, ro2, mk, nts⟩, ?_, ?_⟩
    · simp only [EDLReader.offsetEvent, EDLReader.offsetRecordFields]
      simp [hsi1, hso1, hri1, hro1]
    · simp only [EDLReader.offsetEvent, EDLReader.offsetRecordFields,
        offset_congr hf2 hdf]
      simp [hsi2, hso2, hri2, hro2]

theorem offsetEvents_round (r : EDLReader) {fps : Nat} (off : Nat) (osrc : Bool)
    (hf : r._fps = some fps) :
    ∀ es : List EDLEvent,
    (∀ e ∈ es, canonicalTC fps r.df e.record_in = true ∧
      canonicalTC fps r.df e.record_out = true ∧
      (osrc = true → canonicalTC fps r.df e.source_in = true ∧
        canonicalTC fps r.df e.source_out = true)) →
    ∃ es2, r.offsetEvents off false osrc es = (es2, none) ∧
      ∀ r2 : EDLReader, r2._fps = r._fps → r2.df = r.df →
        r2.offsetEvents off true osrc es2 = (es, none) := by
  intro es
  induction es with
  | nil => intro _; exact ⟨[], rfl, fun r2 _ _ => rfl⟩
  | cons e rest ih =>
    intro hcan
    obtain ⟨h1, h2, h3⟩ := hcan e (by simp)
    obtain ⟨es2, hes1, hes2⟩ := ih (fun x hx => hcan x (by simp [hx]))
    refine ⟨?_, ?_, ?_⟩
    case _ =>
      exact (r.offsetEvent off false osrc e).1 :: es2
    case _ =>
      obtain ⟨e2, he1, _⟩ := offsetEvent_round r r off osrc e hf rfl rfl h1 h2
        (fun ho => (h3 ho).1) (fun ho => (h3 ho).2)
      simp only [EDLReader.offsetEvents, he1, hes1]
    case _ =>
      intro r2 hr2f hr2d
      obtain ⟨e2, he1, he2⟩ := offsetEvent_round r r2 off osrc e hf hr2f hr2d h1 h2
        (fun ho => (h3 ho).1) (fun ho => (h3 ho).2)
      rw [he1]
      simp only [EDLReader.offsetEvents, he2, hes2 r2 hr2f hr2d]

/-- C2: the offset inverse claim fails as stated.  This document's frame rate
is set (24), the offset is one frame and no backward clamping can trigger
(every transformed field holds at least one frame), yet
`offset_forward("1")` followed by `offset_backward("1")` does not restore the
timecodes: the parsed field `00:00:00:30` is not canonical at 24 fps (its
frames part exceeds the rate), so the frame conversion round-trip rewrites it
to `00:00:01:06`. -/
theorem c2_counterexample :
    (EDLReader.init (chars "a.edl")
      [chars "001 AB V C 00:00:00:30 00:00:00:30 00:00:00:30 00:00:00:30", chars "* N"]
      (some 24) false false).map (fun r =>
        ((r.offset_forward (chars "1") true false).2,
         ((r.offset_forward (chars "1") true false).1.offset_backward (chars "1") true false).2,
         ((r.offset_forward (chars "1") true false).1.offset_backward
           (chars "1") true false).1.current_events.map (fun e => e.record_in),
         ((r.offset_forward (chars "1") true false).1.offset_backward
           (chars "1") true false).1.current_events == r.current_events)) =
    .ok (none, none, [chars "00:00:01:06"], false) := by
  decide

/-- C2 (amended): on a document whose frame rate is set and all of whose
transformed timecode fields are canonical for the document's rate and
drop-frame flag (each field equals `frames_to_tc` of its own `tc_to_frames`
value — the form every field produced by a previous transform has),
`offset_forward(x)` followed by `offset_backward(x)` with the same offset
string, unit and applies-to-source flag succeeds, never clamps, and leaves
every timecode field of every event of `current_events` equal to its value
before the two calls. -/
theorem c2_theorem (r : EDLReader) (fps : Nat) (offset : Str) (frames offset_src : Bool)
    (x : Nat)
    (hf : r._fps = some fps)
    (hx : r.offsetAmount offset frames = .ok x)
    (hcan : ∀ e ∈ r.current_events, canonicalTC fps r.df e.record_in = true ∧
      canonicalTC fps r.df e.record_out = true ∧
      (offset_src = true → canonicalTC fps r.df e.source_in = true ∧
        canonicalTC fps r.df e.source_out = true)) :
    ∃ r1 r2, r.offset_forward offset frames offset_src = (r1, none) ∧
      r1.offset_backward offset frames offset_src = (r2, none) ∧
      r2.current_events = r.current_events := by
  obtain ⟨es2, hes1, hes2⟩ := offsetEvents_round r x offset_src hf r.current_events hcan
  refine ⟨{ r with current_events := es2, _isoffset := true },
    { r with current_events := r.current_events, _isoffset := true }, ?_, ?_, rfl⟩
  · simp only [EDLReader.offset_forward, hx, hes1]
  · have hb := hes2 { r with current_events := es2, _isoffset := true } rfl rfl
    have hamt : ({ r with current_events := es2, _isoffset := true } :
        EDLReader).offsetAmount offset frames = .ok x :=
      (offsetAmount_congr rfl offset frames).trans hx
    simp only [EDLReader.offset_backward, hamt, hb]

/-- C2 witness: a canonical one-event document at 24 fps, offset by the
timecode amount `00:00:10:00` applied to source and record fields. -/
theorem c2_witness :
    (⟨chars "a.edl", false, false, [], [],
      [⟨chars "001", chars "AB", chars "V", chars "C", chars "01:00:00:00",
        chars "01:00:00:10", chars "01:00:00:00", chars "01:00:00:10",
        ⟨[], [], []⟩, [chars "* N"]⟩],
      [⟨chars "001", chars "AB", chars "V", chars "C", chars "01:00:00:00",
        chars "01:00:00:10", chars "01:00:00:00", chars "01:00:00:10",
        ⟨[], [], []⟩, [chars "* N"]⟩],
      some 24, false⟩ : EDLReader).offsetAmount (chars "00:00:10:00") false = .ok 240 ∧
    (∃ r1 r2,
      (⟨chars "a.edl", false, false, [], [],
        [⟨chars "001", chars "AB", chars "V", chars "C", chars "01:00:00:00",
          chars "01:00:00:10", chars "01:00:00:00", chars "01:00:00:10",
          ⟨[], [], []⟩, [chars "* N"]⟩],
        [⟨chars "001", chars "AB", chars "V", chars "C", chars "01:00:00:00",
          chars "01:00:00:10", chars "01:00:00:00", chars "01:00:00:10",
          ⟨[], [], []⟩, [chars "* N"]⟩],
        some 24, false⟩ : EDLReader).offset_forward (chars "00:00:10:00") false true =
        (r1, none) ∧
      r1.offset_backward (chars "00:00:10:00") false true = (r2, none) ∧
      r2.current_events =
        [⟨chars "001", chars "AB", chars "V", chars "C", chars "01:00:00:00",
          chars "01:00:00:10", chars "01:00:00:00", chars "01:00:00:10",
          ⟨[], [], []⟩, [chars "* N"]⟩]) :=
  ⟨by decide, c2_theorem
    (⟨chars "a.edl", false, false, [], [],
      [⟨chars "001", chars "AB", chars "V", chars "C", chars "01:00:00:00",
        chars "01:00:00:10", chars "01:00:00:00", chars "01:00:00:10",
        ⟨[], [], []⟩, [chars "* N"]⟩],
      [⟨chars "001", chars "AB", chars "V", chars "C", chars "01:00:00:00",
        chars "01:00:00:10", chars "01:00:00:00", chars "01:00:00:10",
        ⟨[], [], []⟩, [chars "* N"]⟩],
      some 24, false⟩ : EDLReader)
    24 (chars "00:00:10:00") false true 240 rfl (by decide) (by decide)⟩
